import Mathlib

/-!
# go-gpsd: frame classifier, report decoder, watch command encoder and session

A shallow embedding of `client.go` and of the report types of `structs.go`.
Byte slices and Go strings are lists of byte values (`Nat`); the functions
below follow the source statement by statement.  The library functions
`json.Unmarshal` and the Unicode tables of `strconv` are parameters.
-/

namespace Gpsd

/-- The bytes of an ASCII string literal. -/
def bytes (s : String) : List Nat := s.toList.map Char.toNat

/-! ## Frame classifier (`class`) -/

/-- The constant `prefix` of `class`: the nine bytes of `"class":"`. -/
def classPrefix : List Nat := [34, 99, 108, 97, 115, 115, 34, 58, 34]

/-- The whitespace test of `class`: `' '`, `'\r'`, `'\n'` or `'\t'`. -/
def isSpace (c : Nat) : Bool := c == 32 || c == 13 || c == 10 || c == 9

/-- The inner loop `for k := i + 1; k < len(b); k++` of `class`, run on the
bytes after index `i`: the bytes before the first `"`, or `none` when the
loop ends without meeting one. -/
def classValue : List Nat → Option (List Nat)
  | [] => none
  | c :: rest => if c = 34 then some [] else (classValue rest).map (fun v => c :: v)

/-- The outer loop `for i, j := 0, 0; i < len(b); i++` of `class`, run on the
bytes from index `i` on with the key state `j`. -/
def classLoop : List Nat → Nat → List Nat
  | [], _ => []
  | c :: rest, j =>
    if isSpace c then classLoop rest j
    else if classPrefix[j]? = some c then
      if classPrefix.length = j + 1 then (classValue rest).getD []
      else classLoop rest (j + 1)
    else classLoop rest 0

/-- Go `class(b)`: the class name of a JSON report, or the empty string. -/
def classOf (b : List Nat) : List Nat := classLoop b 0

/-- The inner loop of `class` on indices: the index `k` of the first `"`
among the given bytes, the first of which has index `k`. -/
def findQuote : List Nat → Nat → Option Nat
  | [], _ => none
  | c :: rest, k => if c = 34 then some k else findQuote rest (k + 1)

/-- The outer loop of `class` on indices: the pair `(i + 1, k)` of the slice
`b[i+1 : k]` that the function returns, `none` when it returns `""` without
slicing.  The first of the given bytes has index `i`. -/
def classScan : List Nat → Nat → Nat → Option (Nat × Nat)
  | [], _, _ => none
  | c :: rest, i, j =>
    if isSpace c then classScan rest (i + 1) j
    else if classPrefix[j]? = some c then
      if classPrefix.length = j + 1 then (findQuote rest (i + 1)).map (fun k => (i + 1, k))
      else classScan rest (i + 1) (j + 1)
    else classScan rest (i + 1) 0

/-- The bounds `(i + 1, k)` of the class value inside `b`, when `class`
finds one. -/
def classSpan (b : List Nat) : Option (Nat × Nat) := classScan b 0 0

/-- The bytes of `b` that are not whitespace for `class`. -/
def strip (b : List Nat) : List Nat := b.filter (fun c => !isSpace c)

/-- Insertion of whitespace bytes: `WsIns b b'` when `b'` is `b` with any
number of space, tab, CR or LF bytes inserted at any positions. -/
inductive WsIns : List Nat → List Nat → Prop
  | nil : WsIns [] []
  | keep (c : Nat) {b b' : List Nat} : WsIns b b' → WsIns (c :: b) (c :: b')
  | ins (w : Nat) {b b' : List Nat} : isSpace w = true → WsIns b b' → WsIns b (w :: b')

/-- The key state of the outer loop of `class` after the bytes `p`, started
in state `j`; `none` when the key is completed inside `p`. -/
def keyState : List Nat → Nat → Option Nat
  | [], j => some j
  | c :: rest, j =>
    if isSpace c then keyState rest j
    else if classPrefix[j]? = some c then
      if classPrefix.length = j + 1 then none else keyState rest (j + 1)
    else keyState rest 0

/-! ## Watch command encoder (`Client.Stream`) -/

/-- Go `WATCH_ENABLE`: enable streaming. -/
def WATCH_ENABLE : Nat := 0x0001

/-- Go `WATCH_DISABLE`: disable watching. -/
def WATCH_DISABLE : Nat := 0x0002

/-- Go `WATCH_JSON`: JSON output. -/
def WATCH_JSON : Nat := 0x0010

/-- Go `WATCH_NMEA`: output in NMEA. -/
def WATCH_NMEA : Nat := 0x0020

/-- Go `WATCH_RARE`: output of packets in hex. -/
def WATCH_RARE : Nat := 0x0040

/-- Go `WATCH_RAW`: output of raw packets. -/
def WATCH_RAW : Nat := 0x0080

/-- Go `WATCH_SCALED`: scale output to floats. -/
def WATCH_SCALED : Nat := 0x0100

/-- Go `WATCH_TIMING`: timing information. -/
def WATCH_TIMING : Nat := 0x0200

/-- Go `WATCH_DEVICE`: watch specific device. -/
def WATCH_DEVICE : Nat := 0x0800

/-- Go `WATCH_SPLIT24`: split AIS Type 24s. -/
def WATCH_SPLIT24 : Nat := 0x1000

/-- Go `WATCH_PPS`: enable PPS JSON. -/
def WATCH_PPS : Nat := 0x2000

/-! ### The verb `%q` of `fmt.Sprintf`

`Stream` quotes the device path with `fmt.Sprintf` and the verb `%q`, which is
`strconv.Quote` of the Go standard library.  The library is not part of the
repository; the definitions below follow its documented algorithm
(`strconv.appendQuotedWith`, `strconv.appendEscapedRune`,
`utf8.DecodeRuneInString`, `utf8.AppendRune`).  The Unicode tables behind
`strconv.IsPrint` for runes above `0xFF` are a parameter `tbl`. -/

/-- The digit `lowerhex[n]` of package `strconv`, for `n < 16`. -/
def lowerhex (n : Nat) : Nat := if n < 10 then 48 + n else 87 + n

/-- The constant `utf8.RuneError`. -/
def runeError : Nat := 0xFFFD

/-- The table `first` of package `utf8` with `acceptRanges`, for a leading
byte `s0 ≥ 0x80`: the size of the encoding and the bounds of the second byte,
`none` for an invalid leading byte. -/
def acceptRange (s0 : Nat) : Option (Nat × Nat × Nat) :=
  if 0xC2 ≤ s0 ∧ s0 ≤ 0xDF then some (2, 0x80, 0xBF)
  else if s0 = 0xE0 then some (3, 0xA0, 0xBF)
  else if (0xE1 ≤ s0 ∧ s0 ≤ 0xEC) ∨ s0 = 0xEE ∨ s0 = 0xEF then some (3, 0x80, 0xBF)
  else if s0 = 0xED then some (3, 0x80, 0x9F)
  else if s0 = 0xF0 then some (4, 0x90, 0xBF)
  else if 0xF1 ≤ s0 ∧ s0 ≤ 0xF3 then some (4, 0x80, 0xBF)
  else if s0 = 0xF4 then some (4, 0x80, 0x8F)
  else none

/-- Go `utf8.DecodeRuneInString`: the first rune of `s` and its width in
bytes; `(RuneError, 1)` for an invalid encoding. -/
def decodeRune : List Nat → Nat × Nat
  | [] => (runeError, 0)
  | s0 :: t =>
    if s0 < 0x80 then (s0, 1)
    else
      match acceptRange s0 with
      | none => (runeError, 1)
      | some (sz, lo, hi) =>
        if t.length + 1 < sz then (runeError, 1)
        else
          match t with
          | [] => (runeError, 1)
          | s1 :: t1 =>
            if s1 < lo ∨ hi < s1 then (runeError, 1)
            else if sz ≤ 2 then (((s0 &&& 0x1F) <<< 6) ||| (s1 &&& 0x3F), 2)
            else
              match t1 with
              | [] => (runeError, 1)
              | s2 :: t2 =>
                if s2 < 0x80 ∨ 0xBF < s2 then (runeError, 1)
                else if sz ≤ 3 then
                  (((s0 &&& 0x0F) <<< 12) ||| ((s1 &&& 0x3F) <<< 6) ||| (s2 &&& 0x3F), 3)
                else
                  match t2 with
                  | [] => (runeError, 1)
                  | s3 :: _ =>
                    if s3 < 0x80 ∨ 0xBF < s3 then (runeError, 1)
                    else
                      (((s0 &&& 0x07) <<< 18) ||| ((s1 &&& 0x3F) <<< 12)
                        ||| ((s2 &&& 0x3F) <<< 6) ||| (s3 &&& 0x3F), 4)

/-- Go `utf8.AppendRune` to an empty buffer: the UTF-8 encoding of `r`. -/
def encodeRune (r : Nat) : List Nat :=
  if r ≤ 0x7F then [r]
  else if r ≤ 0x7FF then [0xC0 ||| (r >>> 6), 0x80 ||| (r &&& 0x3F)]
  else if 0x10FFFF < r ∨ (0xD800 ≤ r ∧ r ≤ 0xDFFF) then [0xEF, 0xBF, 0xBD]
  else if r ≤ 0xFFFF then
    [0xE0 ||| (r >>> 12), 0x80 ||| ((r >>> 6) &&& 0x3F), 0x80 ||| (r &&& 0x3F)]
  else
    [0xF0 ||| (r >>> 18), 0x80 ||| ((r >>> 12) &&& 0x3F), 0x80 ||| ((r >>> 6) &&& 0x3F),
      0x80 ||| (r &&& 0x3F)]

/-- Go `strconv.IsPrint`: the fast check for Latin-1, the tables `tbl` above. -/
def isPrintRune (tbl : Nat → Bool) (r : Nat) : Bool :=
  if r ≤ 0xFF then
    if 0x20 ≤ r ∧ r < 0x7F then true
    else if 0xA1 ≤ r then r != 0xAD
    else false
  else tbl r

/-- Go `utf8.ValidRune`: below the surrogates, or above them up to
`utf8.MaxRune`. -/
def validRune (r : Nat) : Bool := r < 0xD800 || (0xDFFF < r && r ≤ 0x10FFFF)

/-- Go `strconv.appendEscapedRune` with the quote `"`, not ASCII-only, to an
empty buffer. -/
def appendEscapedRune (tbl : Nat → Bool) (r : Nat) : List Nat :=
  if r = 34 ∨ r = 92 then [92, r]
  else if isPrintRune tbl r then encodeRune r
  else if r = 7 then [92, 97]
  else if r = 8 then [92, 98]
  else if r = 12 then [92, 102]
  else if r = 10 then [92, 110]
  else if r = 13 then [92, 114]
  else if r = 9 then [92, 116]
  else if r = 11 then [92, 118]
  else if r < 32 ∨ r = 0x7F then [92, 120, lowerhex (r >>> 4), lowerhex (r &&& 0xF)]
  else if !validRune r then [92, 117, 102, 102, 102, 100]
  else if r < 0x10000 then
    [92, 117, lowerhex ((r >>> 12) &&& 0xF), lowerhex ((r >>> 8) &&& 0xF),
      lowerhex ((r >>> 4) &&& 0xF), lowerhex (r &&& 0xF)]
  else
    [92, 85, lowerhex ((r >>> 28) &&& 0xF), lowerhex ((r >>> 24) &&& 0xF),
      lowerhex ((r >>> 20) &&& 0xF), lowerhex ((r >>> 16) &&& 0xF),
      lowerhex ((r >>> 12) &&& 0xF), lowerhex ((r >>> 8) &&& 0xF),
      lowerhex ((r >>> 4) &&& 0xF), lowerhex (r &&& 0xF)]

/-- The loop of Go `strconv.appendQuotedWith` over the string `s`; every turn
consumes at least one byte, so `fuel = len(s)` turns are enough. -/
def quoteLoop (tbl : Nat → Bool) : Nat → List Nat → List Nat
  | 0, _ => []
  | _ + 1, [] => []
  | fuel + 1, s0 :: t =>
    let rw := if 0x80 ≤ s0 then decodeRune (s0 :: t) else (s0, 1)
    if rw.2 = 1 ∧ rw.1 = runeError then
      [92, 120, lowerhex (s0 >>> 4), lowerhex (s0 &&& 0xF)] ++ quoteLoop tbl fuel t
    else appendEscapedRune tbl rw.1 ++ quoteLoop tbl fuel (t.drop (rw.2 - 1))

/-- Go `fmt.Sprintf("%q", s)`, that is `strconv.Quote(s)`. -/
def goQuote (tbl : Nat → Bool) (s : List Nat) : List Nat :=
  34 :: quoteLoop tbl s.length s ++ [34]

/-- The string `s` that `Client.Stream` builds and hands to `Send`. -/
def streamCmd (tbl : Nat → Bool) (flags : Nat) (devpath : List Nat) : List Nat :=
  let s := bytes "?WATCH=\x7b"
  if flags &&& WATCH_DISABLE ≠ 0 then
    let s := s ++ bytes "\"enable\":false"
    let s := if flags &&& WATCH_JSON ≠ 0 then s ++ bytes ",\"json\":false" else s
    let s := if flags &&& WATCH_NMEA ≠ 0 then s ++ bytes ",\"nmea\":false" else s
    let s := if flags &&& WATCH_RARE ≠ 0 then s ++ bytes ",\"raw\":1" else s
    let s := if flags &&& WATCH_RAW ≠ 0 then s ++ bytes ",\"raw\":2" else s
    let s := if flags &&& WATCH_SCALED ≠ 0 then s ++ bytes ",\"scaled\":false" else s
    let s := if flags &&& WATCH_TIMING ≠ 0 then s ++ bytes ",\"scaled\":false" else s
    let s := if flags &&& WATCH_SPLIT24 ≠ 0 then s ++ bytes ",\"split24\":false" else s
    let s := if flags &&& WATCH_PPS ≠ 0 then s ++ bytes ",\"pps\":false" else s
    s ++ bytes "\x7d"
  else
    let s := s ++ bytes "\"enable\":true"
    let s := if flags &&& WATCH_JSON ≠ 0 then s ++ bytes ",\"json\":true" else s
    let s := if flags &&& WATCH_NMEA ≠ 0 then s ++ bytes ",\"nmea\":true" else s
    let s := if flags &&& WATCH_RARE ≠ 0 then s ++ bytes ",\"raw\":1" else s
    let s := if flags &&& WATCH_RAW ≠ 0 then s ++ bytes ",\"raw\":2" else s
    let s := if flags &&& WATCH_SCALED ≠ 0 then s ++ bytes ",\"scaled\":true" else s
    let s := if flags &&& WATCH_TIMING ≠ 0 then s ++ bytes ",\"scaled\":true" else s
    let s := if flags &&& WATCH_SPLIT24 ≠ 0 then s ++ bytes ",\"split24\":true" else s
    let s := if flags &&& WATCH_PPS ≠ 0 then s ++ bytes ",\"pps\":true" else s
    let s := if flags &&& WATCH_DEVICE ≠ 0 then s ++ (bytes ",\"device\":" ++ goQuote tbl devpath) else s
    s ++ bytes "\x7d"

/-- One statement `if flags&bit != 0 { s += t }` of `Stream`, recorded: the
flag bit tested with the text appended, nothing when the bit is unset. -/
def emit (flags bit : Nat) (t : List Nat) : List (Nat × List Nat) :=
  if flags &&& bit ≠ 0 then [(bit, t)] else []

/-- The appends that `Stream` performs after the `enable` member, in the
order of the source, each with the flag bit whose test guards it. -/
def streamTrace (tbl : Nat → Bool) (flags : Nat) (devpath : List Nat) : List (Nat × List Nat) :=
  if flags &&& WATCH_DISABLE ≠ 0 then
    emit flags WATCH_JSON (bytes ",\"json\":false")
      ++ emit flags WATCH_NMEA (bytes ",\"nmea\":false")
      ++ emit flags WATCH_RARE (bytes ",\"raw\":1")
      ++ emit flags WATCH_RAW (bytes ",\"raw\":2")
      ++ emit flags WATCH_SCALED (bytes ",\"scaled\":false")
      ++ emit flags WATCH_TIMING (bytes ",\"scaled\":false")
      ++ emit flags WATCH_SPLIT24 (bytes ",\"split24\":false")
      ++ emit flags WATCH_PPS (bytes ",\"pps\":false")
  else
    emit flags WATCH_JSON (bytes ",\"json\":true")
      ++ emit flags WATCH_NMEA (bytes ",\"nmea\":true")
      ++ emit flags WATCH_RARE (bytes ",\"raw\":1")
      ++ emit flags WATCH_RAW (bytes ",\"raw\":2")
      ++ emit flags WATCH_SCALED (bytes ",\"scaled\":true")
      ++ emit flags WATCH_TIMING (bytes ",\"scaled\":true")
      ++ emit flags WATCH_SPLIT24 (bytes ",\"split24\":true")
      ++ emit flags WATCH_PPS (bytes ",\"pps\":true")
      ++ emit flags WATCH_DEVICE (bytes ",\"device\":" ++ goQuote tbl devpath)

/-- The bytes of a recorded sequence of appends. -/
def renderTrace : List (Nat × List Nat) → List Nat
  | [] => []
  | p :: rest => p.2 ++ renderTrace rest

/-! ### JSON string literals

The grammar of a JSON string (RFC 8259, section 7), against which the quoted
device path is checked. -/

/-- A hexadecimal digit `0-9`, `A-F` or `a-f`. -/
def isHexDigit (c : Nat) : Bool :=
  (48 ≤ c && c ≤ 57) || (65 ≤ c && c ≤ 70) || (97 ≤ c && c ≤ 102)

/-- The part of a JSON string literal after its opening quote: unescaped
bytes from `0x20` on other than `"` and `\`, the escapes `\"`, `\\`, `\/`,
`\b`, `\f`, `\n`, `\r`, `\t` and `\uXXXX`, then the closing quote and nothing
after it. -/
def jsonStringBody : List Nat → Bool
  | [] => false
  | c :: rest =>
    if c = 34 then rest.isEmpty
    else if c = 92 then
      match rest with
      | [] => false
      | e :: rest1 =>
        if e = 34 ∨ e = 92 ∨ e = 47 ∨ e = 98 ∨ e = 102 ∨ e = 110 ∨ e = 114 ∨ e = 116 then
          jsonStringBody rest1
        else if e = 117 then
          match rest1 with
          | h1 :: h2 :: h3 :: h4 :: rest2 =>
            isHexDigit h1 && isHexDigit h2 && isHexDigit h3 && isHexDigit h4
              && jsonStringBody rest2
          | _ => false
        else false
    else if c < 32 then false
    else jsonStringBody rest

/-- Whether the bytes `s` are a JSON string literal. -/
def isJsonString : List Nat → Bool
  | [] => false
  | c :: rest => c == 34 && jsonStringBody rest

/-! ## Session (`Client`) -/

/-- A Go `error` value other than `nil`; `errClosed` is the value of the
package variable `ErrClosed`, the other errors come from the transport. -/
inductive GoError where
  | errClosed : GoError
  | other : Nat → GoError
  deriving DecidableEq

/-- Go `ErrClosed`: signalizes that client is closed. -/
def ErrClosed : GoError := GoError.errClosed

/-- The `net.Conn` of a client as `close` uses it: the value its `Close`
method returns and the number of calls of `Close` made so far. -/
structure Conn where
  closeResult : Option GoError
  closeCalls : Nat
  deriving DecidableEq

/-- Go `Client`: the stored error `err` (`none` is `nil`), the connection
(`none` is a nil `conn`), the channel `done` as the number of times
`close(c.done)` was executed (it is closed when the number is positive; a
second execution would panic), and the channel `evch` likewise. -/
structure Client where
  err : Option GoError
  conn : Option Conn
  doneCloses : Nat
  evchCloses : Nat
  deriving DecidableEq

/-- The statements of Go `(c *Client).close(err)` between `c.mu.Lock()` and
the deferred `c.mu.Unlock()`: the client afterwards and the returned error.
The call with its lock is `Session.close`. -/
def Client.close (c : Client) (err : Option GoError) : Client × Option GoError :=
  if 0 < c.doneCloses then (c, none)
  else
    let c1 : Client := { c with err := err, doneCloses := c.doneCloses + 1 }
    match c1.conn with
    | some conn =>
      ({ c1 with conn := some { conn with closeCalls := conn.closeCalls + 1 } }, conn.closeResult)
    | none => (c1, none)

/-- Go `(c *Client).Err()`. -/
def Client.Err (c : Client) : Option GoError := c.err

/-- The exit of `rx` on a read error `err` once `close` has the mutex:
`_ = c.close(err); return`, then the deferred `close(c.evch)`.  The exit with
the lock of `close` is `Session.rxFail`. -/
def Client.rxReadError (c : Client) (err : GoError) : Client :=
  let c1 := (c.close (some err)).1
  { c1 with evchCloses := c1.evchCloses + 1 }

/-! ## Reference search for `class` -/

/-- Whether the bytes `key` match at the start of the second argument when
space, tab, CR and LF bytes are skipped: the bytes left after the match. -/
def matchKey : List Nat → List Nat → Option (List Nat)
  | [], b => some b
  | _ :: _, [] => none
  | k :: ks, c :: rest =>
    if isSpace c then matchKey (k :: ks) rest
    else if c = k then matchKey ks rest
    else none

/-- The naive reference search for `class`, in the words of its description:
nothing is dropped from `b`; the first position at which the nine bytes of
the key match the bytes of `b` with whitespace skipped is found, and the
bytes from just after that match up to the next `"` are returned; the empty
string when there is no such match or no such closing quote. -/
def classRef : List Nat → List Nat
  | [] => []
  | c :: rest =>
    match matchKey classPrefix (c :: rest) with
    | some tail => (classValue tail).getD []
    | none => classRef rest

/-! ## Report decoder (`unmarshal`) -/

/-- The struct types of `structs.go` that the switch of `unmarshal` allocates. -/
inductive Kind where
  | TPV | SKY | GST | ATT | VERSION | DEVICES | WATCH | POLL | TOFF | PPS | OSC | DEVICE | ERROR
  deriving DecidableEq

/-- The name of the Go type of a report struct. -/
def Kind.name : Kind → List Nat
  | .TPV => bytes "TPV"
  | .SKY => bytes "SKY"
  | .GST => bytes "GST"
  | .ATT => bytes "ATT"
  | .VERSION => bytes "VERSION"
  | .DEVICES => bytes "DEVICES"
  | .WATCH => bytes "WATCH"
  | .POLL => bytes "POLL"
  | .TOFF => bytes "TOFF"
  | .PPS => bytes "PPS"
  | .OSC => bytes "OSC"
  | .DEVICE => bytes "DEVICE"
  | .ERROR => bytes "ERROR"

/-- A Go byte slice that shares the buffer of the `bufio.Reader` of `rx`: the
offset of its first byte in the buffer and its length.  It holds no bytes of
its own: they are read through the buffer, which later reads overwrite. -/
structure BufSlice where
  off : Nat
  len : Nat
  deriving DecidableEq

/-- The bytes seen through the slice `b` while the buffer holds `buf`. -/
def BufSlice.bytes (b : BufSlice) (buf : List Nat) : List Nat :=
  (buf.drop b.off).take b.len

/-- Go `Report`: a pointer to one of the report structs, with its field
`Class` and its other fields (of a type `P` left open), or a `RAW` byte
slice.  `rx` makes a `RAW` by the conversion `RAW(b)` of the slice that
`ReadSlice` returned, which copies nothing: the report is that slice of the
reader's buffer. -/
inductive Report (P : Type) where
  | struct (k : Kind) (Class : List Nat) (fields : P)
  | RAW (b : BufSlice)
  deriving DecidableEq

/-- Go `class()` of the report types: the field `Class` of a struct, the
constant `"RAW"` of `RAW`. -/
def Report.class {P : Type} : Report P → List Nat
  | .struct _ c _ => c
  | .RAW _ => bytes "RAW"

/-- The errors that `unmarshal` returns: the one it makes with `fmt.Errorf`,
with its message, or the one `json.Unmarshal` returned. -/
inductive UnmarshalError where
  | unknownClass (msg : List Nat)
  | json (e : GoError)
  deriving DecidableEq

/-- The switch of `unmarshal`: the struct allocated for the class `cls`,
`none` in the default case. -/
def dispatch (cls : List Nat) : Option Kind :=
  if cls = bytes "TPV" then some Kind.TPV
  else if cls = bytes "SKY" then some Kind.SKY
  else if cls = bytes "GST" then some Kind.GST
  else if cls = bytes "ATT" then some Kind.ATT
  else if cls = bytes "VERSION" then some Kind.VERSION
  else if cls = bytes "DEVICES" then some Kind.DEVICES
  else if cls = bytes "WATCH" then some Kind.WATCH
  else if cls = bytes "POLL" then some Kind.POLL
  else if cls = bytes "TOFF" then some Kind.TOFF
  else if cls = bytes "PPS" then some Kind.PPS
  else if cls = bytes "OSC" then some Kind.OSC
  else if cls = bytes "DEVICE" then some Kind.DEVICE
  else if cls = bytes "ERROR" then some Kind.ERROR
  else none

/-- The case labels of the switch of `unmarshal`, in the order of the source. -/
def knownTags : List (List Nat) :=
  [bytes "TPV", bytes "SKY", bytes "GST", bytes "ATT", bytes "VERSION", bytes "DEVICES",
    bytes "WATCH", bytes "POLL", bytes "TOFF", bytes "PPS", bytes "OSC", bytes "DEVICE",
    bytes "ERROR"]

/-- Go `unmarshal(cls, b)`.  The library function `json.Unmarshal(b, v)` for
a zero struct `v` of kind `k` is the parameter `dec`: it fails, or fills the
struct, whose field `Class` and other fields it returns. -/
def unmarshal {P : Type} (tbl : Nat → Bool)
    (dec : Kind → List Nat → Except GoError (List Nat × P))
    (cls b : List Nat) : Except UnmarshalError (Report P) :=
  match dispatch cls with
  | none => Except.error (UnmarshalError.unknownClass (bytes "unknown class " ++ goQuote tbl cls))
  | some k =>
    match dec k b with
    | Except.error e => Except.error (UnmarshalError.json e)
    | Except.ok v => Except.ok (Report.struct k v.1 v.2)

/-! ## Receive loop (`rx`) and `Send` -/

/-- The result of `r.ReadSlice('\n')`: with a nil error the slice `b` of the
reader's buffer, which holds `buf` after the read; or an error. -/
inductive ReadResult where
  | line (buf : List Nat) (b : BufSlice)
  | fail (err : GoError)

/-- The statement `if b[len(b)-1] == '\r' { b = b[:len(b)-2] }` of `rx` on the
slice `b` of the buffer `buf`; `none` when an index is out of range. -/
def trimCR (buf : List Nat) (b : BufSlice) : Option BufSlice :=
  match (b.bytes buf).getLast? with
  | none => none
  | some x =>
    if x = 13 then
      if 2 ≤ b.len then some { b with len := b.len - 2 } else none
    else some b

/-- The body of the loop of `rx` from the trim to the `select`, for the slice
`b` read while the buffer holds `buf`: `none` when an index is out of range,
`some none` when the frame is dropped by `continue`, `some (some v)` when the
report `v` goes to the `select`.  `class` and `json.Unmarshal` read the bytes
of the slice now; `RAW(b)` is the slice itself. -/
def rxFrame {P : Type} (tbl : Nat → Bool)
    (dec : Kind → List Nat → Except GoError (List Nat × P))
    (buf : List Nat) (b : BufSlice) : Option (Option (Report P)) :=
  match trimCR buf b with
  | none => none
  | some b1 =>
    match b1.bytes buf with
    | [] => none
    | c :: rest =>
      if c = 123 then
        match unmarshal tbl dec (classOf (c :: rest)) (c :: rest) with
        | Except.error _ => some none
        | Except.ok v => some (some v)
      else some (some (Report.RAW b1))

/-- The client with its mutex `c.mu`: `mu` is true when the mutex is held by
a goroutine that is itself waiting for it, so that it is never released. -/
structure Session where
  c : Client
  mu : Bool
  deriving DecidableEq

/-- How a call ends: it returns an error value (`none` is nil), it blocks
for ever, or it panics. -/
inductive Ret where
  | returned (err : Option GoError)
  | blocked
  | panicked
  deriving DecidableEq

/-- A call of `c.close(err)` by a goroutine that does not hold `c.mu`:
`c.mu.Lock()` blocks for ever when the mutex is never released, otherwise
the body of `close` runs and the mutex is released. -/
def Session.close (s : Session) (err : Option GoError) : Session × Ret :=
  if s.mu then (s, Ret.blocked)
  else ({ s with c := (s.c.close err).1 }, Ret.returned (s.c.close err).2)

/-- Go `(c *Client).Close()` on the session with its mutex. -/
def Session.Close (s : Session) : Session × Ret := s.close (some ErrClosed)

/-- What a call of `Send` did: the session afterwards, how the call ended,
and the byte slices handed to `c.conn.Write`. -/
structure SendResult where
  after : Session
  ret : Ret
  writes : List (List Nat)
  deriving DecidableEq

/-- Go `(c *Client).Send(b)`, where `w` is the error that `c.conn.Write(b)`
returns if it is called.  `Send` locks `c.mu` and holds it to its return; on
a write error it calls `c.close(err)`, whose `c.mu.Lock()` then waits for the
mutex that the same goroutine holds. -/
def Session.Send (s : Session) (b : List Nat) (w : Option GoError) : SendResult :=
  if s.mu then { after := s, ret := Ret.blocked, writes := [] }
  else
    match s.c.err with
    | some e => { after := s, ret := Ret.returned (some e), writes := [] }
    | none =>
      match s.c.conn with
      | none => { after := s, ret := Ret.panicked, writes := [] }
      | some _ =>
        match w with
        | some _ => { after := { s with mu := true }, ret := Ret.blocked, writes := [b] }
        | none => { after := s, ret := Ret.returned none, writes := [b] }

/-- The exit of `rx` on a read error on the session with its mutex: the call
of `c.close(err)` blocks when the mutex is never released, otherwise `close`
runs and `rx` returns, closing `evch`. -/
def Session.rxFail (s : Session) (err : GoError) : Session :=
  if s.mu then s else { s with c := s.c.rxReadError err }

/-- What one turn of the loop of `rx` did: the session afterwards, the
reports sent on `evch`, and whether the loop goes on. -/
structure RxStep (P : Type) where
  after : Session
  published : List (Report P)
  running : Bool
  deriving DecidableEq

/-- One turn of the loop of `rx` for the result `r` of the read; `none` when
the turn panics on an index out of range.  In the `select` the send on `evch`
is taken while `done` is open; once `done` is closed, `pick` tells whether
the send is taken all the same, otherwise `rx` returns and closes `evch`. -/
def Session.rxStep {P : Type} (tbl : Nat → Bool)
    (dec : Kind → List Nat → Except GoError (List Nat × P))
    (s : Session) (r : ReadResult) (pick : Bool) : Option (RxStep P) :=
  match r with
  | ReadResult.fail err => some { after := s.rxFail err, published := [], running := false }
  | ReadResult.line buf b =>
    match rxFrame tbl dec buf b with
    | none => none
    | some none => some { after := s, published := [], running := true }
    | some (some v) =>
      if 0 < s.c.doneCloses ∧ pick = false then
        some { after := { s with c := { s.c with evchCloses := s.c.evchCloses + 1 } },
               published := [], running := false }
      else some { after := s, published := [v], running := true }

/-- The loop of `rx` over the results of its reads, until they are used up or
`rx` returns: the session afterwards with the reports sent on `evch` in
order; `none` when a turn panics. -/
def Session.rxRun {P : Type} (tbl : Nat → Bool)
    (dec : Kind → List Nat → Except GoError (List Nat × P)) :
    Session → List (ReadResult × Bool) → Option (Session × List (Report P))
  | s, [] => some (s, [])
  | s, x :: rest =>
    match s.rxStep tbl dec x.1 x.2 with
    | none => none
    | some st =>
      if st.running then
        (Session.rxRun tbl dec st.after rest).map (fun q => (q.1, st.published ++ q.2))
      else some (st.after, st.published)

/-- The sessions reachable from a freshly constructed one (`New` with a
connection) through `Close()`, read errors in the receive loop and `Send`
calls. -/
inductive Reachable : Session → Prop
  | new (k : Conn) : Reachable (Session.mk (Client.mk none (some k) 0 0) false)
  | Close {s : Session} : Reachable s → Reachable (s.Close).1
  | rxFail {s : Session} (err : GoError) : Reachable s → Reachable (s.rxFail err)
  | Send {s : Session} (b : List Nat) (w : Option GoError) :
      Reachable s → Reachable (s.Send b w).after

/-! ## Lemmas on `class` -/

theorem isSpace_ne_quote {w : Nat} (h : isSpace w = true) : w ≠ 34 := by
  intro e
  subst e
  simp [isSpace] at h

theorem mem_quote_of_wsIns {r r' : List Nat} (h : WsIns r r') : 34 ∈ r' ↔ 34 ∈ r := by
  induction h with
  | nil => simp
  | keep c _ ih => simp [ih]
  | ins w hw _ ih =>
    have hne : ¬ (34 = w) := fun e => isSpace_ne_quote hw e.symm
    simp [ih, hne]

theorem wsIns_refl (b : List Nat) : WsIns b b := by
  induction b with
  | nil => exact WsIns.nil
  | cons c b ih => exact WsIns.keep c ih

theorem wsIns_append {a a' b b' : List Nat} (h₁ : WsIns a a') (h₂ : WsIns b b') :
    WsIns (a ++ b) (a' ++ b') := by
  induction h₁ with
  | nil => simpa using h₂
  | keep c _ ih => exact WsIns.keep c ih
  | ins w hw _ ih => exact WsIns.ins w hw ih

theorem strip_of_wsIns {b b' : List Nat} (h : WsIns b b') : strip b' = strip b := by
  induction h with
  | nil => rfl
  | keep c _ ih => simp [strip, List.filter_cons] at ih ⊢; simp [ih]
  | ins w hw _ ih => simp [strip, List.filter_cons, hw] at ih ⊢; exact ih

theorem findQuote_eq_none {l : List Nat} {k : Nat} : findQuote l k = none ↔ 34 ∉ l := by
  induction l generalizing k with
  | nil => simp [findQuote]
  | cons c l ih =>
    by_cases hc : c = 34
    · simp [findQuote, hc]
    · have hc' : ¬ (34 = c) := fun e => hc e.symm
      simp [findQuote, hc, hc', ih]

theorem classValue_eq_none {l : List Nat} : classValue l = none ↔ 34 ∉ l := by
  induction l with
  | nil => simp [classValue]
  | cons c l ih =>
    by_cases hc : c = 34
    · simp [classValue, hc]
    · have hc' : ¬ (34 = c) := fun e => hc e.symm
      simp [classValue, hc, hc', ih]

theorem classValue_append_quote (v rest : List Nat) (hv : 34 ∉ v) :
    classValue (v ++ 34 :: rest) = some v := by
  induction v with
  | nil => simp [classValue]
  | cons c v ih =>
    have hc : c ≠ 34 := fun e => hv (by simp [e])
    have hv' : 34 ∉ v := fun h => hv (by simp [h])
    simp [classValue, hc, ih hv']

theorem findQuote_bounds {l : List Nat} {k m : Nat} (h : findQuote l k = some m) :
    k ≤ m ∧ m < k + l.length := by
  induction l generalizing k with
  | nil => simp [findQuote] at h
  | cons c l ih =>
    by_cases hc : c = 34
    · simp [findQuote, hc] at h
      subst h
      simp
    · simp [findQuote, hc] at h
      have := ih h
      simp
      omega

theorem classScan_bounds {b : List Nat} {i j a e : Nat} (h : classScan b i j = some (a, e)) :
    i < a ∧ a ≤ e ∧ e < i + b.length := by
  induction b generalizing i j with
  | nil => simp [classScan] at h
  | cons c b ih =>
    simp only [classScan] at h
    split at h
    · have := ih h
      simp
      omega
    · split at h
      · split at h
        · cases hq : findQuote b (i + 1) with
          | none => simp [hq] at h
          | some m =>
            simp [hq] at h
            have := findQuote_bounds hq
            obtain ⟨h1, h2⟩ := h
            subst h1
            subst h2
            simp
            omega
        · have := ih h
          simp
          omega
      · have := ih h
        simp
        omega

theorem strip_append (a b : List Nat) : strip (a ++ b) = strip a ++ strip b := by
  simp [strip]

theorem classLoop_append_of_keyState {p : List Nat} {j j' : Nat} (s : List Nat)
    (h : keyState p j = some j') : classLoop (p ++ s) j = classLoop s j' := by
  induction p generalizing j with
  | nil =>
    simp [keyState] at h
    subst h
    rfl
  | cons c p ih =>
    simp only [keyState] at h
    simp only [List.cons_append, classLoop]
    by_cases hs : isSpace c = true
    · rw [if_pos hs] at h ⊢
      exact ih h
    · rw [if_neg hs] at h ⊢
      by_cases hm : classPrefix[j]? = some c
      · rw [if_pos hm] at h ⊢
        by_cases hl : classPrefix.length = j + 1
        · rw [if_pos hl] at h
          cases h
        · rw [if_neg hl] at h ⊢
          exact ih h
      · rw [if_neg hm] at h ⊢
        exact ih h

theorem keyState_of_no_key (p acc : List Nat) (j : Nat) (hj : j < 9)
    (hsuf : classPrefix.take j <:+ strip acc) (hno : ¬ classPrefix <:+: strip (acc ++ p)) :
    ∃ j', keyState p j = some j' ∧ j' < 9 ∧ classPrefix.take j' <:+ strip (acc ++ p) := by
  induction p generalizing j acc with
  | nil => exact ⟨j, rfl, hj, by simpa using hsuf⟩
  | cons c p ih =>
    have hsplit : acc ++ c :: p = (acc ++ [c]) ++ p := by simp
    rw [hsplit] at hno ⊢
    simp only [keyState]
    by_cases hs : isSpace c = true
    · rw [if_pos hs]
      have hst : strip (acc ++ [c]) = strip acc := by simp [strip, hs]
      exact ih (acc ++ [c]) j hj (by rw [hst]; exact hsuf) hno
    · rw [if_neg hs]
      have hst : strip (acc ++ [c]) = strip acc ++ [c] := by simp [strip, hs]
      by_cases hm : classPrefix[j]? = some c
      · rw [if_pos hm]
        have htake : classPrefix.take (j + 1) = classPrefix.take j ++ [c] := by
          rw [List.take_succ, hm]
          rfl
        have hsuf' : classPrefix.take (j + 1) <:+ strip (acc ++ [c]) := by
          obtain ⟨t, ht⟩ := hsuf
          exact ⟨t, by rw [htake, hst, ← ht, List.append_assoc]⟩
        by_cases hl : classPrefix.length = j + 1
        · exfalso
          apply hno
          rw [← hl, List.take_length] at hsuf'
          rw [strip_append]
          obtain ⟨t, ht⟩ := hsuf'
          exact ⟨t, strip p, by rw [ht]⟩
        · rw [if_neg hl]
          have hj' : j + 1 < 9 := by
            have : classPrefix.length = 9 := rfl
            omega
          exact ih (acc ++ [c]) (j + 1) hj' hsuf' hno
      · rw [if_neg hm]
        exact ih (acc ++ [c]) 0 (by omega) (by simp) hno

theorem classLoop_key (t : List Nat) : classLoop (classPrefix ++ t) 0 = (classValue t).getD [] := by
  rfl

theorem getLast?_of_suffix {l₁ l₂ : List Nat} (h : l₁ <:+ l₂) (hne : l₁ ≠ []) :
    l₂.getLast? = l₁.getLast? := by
  obtain ⟨t, rfl⟩ := h
  cases l₁ with
  | nil => exact absurd rfl hne
  | cons x l =>
    rw [List.getLast?_append, List.getLast?_eq_getLast (x :: l) hne]
    rfl

theorem keyState_zero_of_last {pre : List Nat} {j' : Nat} (hj : j' < 9)
    (hsuf : classPrefix.take j' <:+ strip pre)
    (hlast : (strip pre).getLast? = some 123 ∨ (strip pre).getLast? = some 44) : j' = 0 := by
  by_contra hne
  have hne' : classPrefix.take j' ≠ [] := by
    interval_cases j' <;> simp [classPrefix] at hne ⊢
  have h := getLast?_of_suffix hsuf hne'
  rw [h] at hlast
  interval_cases j' <;> simp [classPrefix] at hlast hne

theorem classScan_none_of_wsIns {b b' : List Nat} (h : WsIns b b') (i i' j : Nat)
    (hn : classScan b i j = none) : classScan b' i' j = none := by
  induction h generalizing i i' j with
  | nil => rfl
  | @keep c b b' hbb ih =>
    simp only [classScan] at hn ⊢
    by_cases hs : isSpace c = true
    · rw [if_pos hs] at hn ⊢
      exact ih _ _ _ hn
    · rw [if_neg hs] at hn ⊢
      by_cases hm : classPrefix[j]? = some c
      · rw [if_pos hm] at hn ⊢
        by_cases hl : classPrefix.length = j + 1
        · rw [if_pos hl] at hn ⊢
          have h1 : findQuote b (i + 1) = none := by simpa using hn
          rw [findQuote_eq_none] at h1
          have h2 : findQuote b' (i' + 1) = none := by
            rw [findQuote_eq_none, mem_quote_of_wsIns hbb]
            exact h1
          simp [h2]
        · rw [if_neg hl] at hn ⊢
          exact ih _ _ _ hn
      · rw [if_neg hm] at hn ⊢
        exact ih _ _ _ hn
  | @ins w b b' hw hbb ih =>
    simp only [classScan]
    rw [if_pos hw]
    exact ih _ _ _ hn

theorem classLoop_of_classScan_none {b : List Nat} {i j : Nat} (hn : classScan b i j = none) :
    classLoop b j = [] := by
  induction b generalizing i j with
  | nil => rfl
  | cons c b ih =>
    simp only [classScan] at hn
    simp only [classLoop]
    by_cases hs : isSpace c = true
    · rw [if_pos hs] at hn ⊢
      exact ih hn
    · rw [if_neg hs] at hn ⊢
      by_cases hm : classPrefix[j]? = some c
      · rw [if_pos hm] at hn ⊢
        by_cases hl : classPrefix.length = j + 1
        · rw [if_pos hl] at hn ⊢
          have h1 : findQuote b (i + 1) = none := by simpa using hn
          rw [findQuote_eq_none] at h1
          rw [classValue_eq_none.mpr h1]
          rfl
        · rw [if_neg hl] at hn ⊢
          exact ih hn
      · rw [if_neg hm] at hn ⊢
        exact ih hn

theorem keyState_of_wsIns {p p' : List Nat} (h : WsIns p p') (j : Nat) :
    keyState p' j = keyState p j := by
  induction h generalizing j with
  | nil => rfl
  | @keep c b b' hbb ih =>
    simp only [keyState]
    rw [ih, ih, ih]
  | @ins w b b' hw hbb ih =>
    simp only [keyState]
    rw [if_pos hw]
    exact ih j

theorem keyState_of_classScan {p s : List Nat} {i j a e : Nat}
    (h : classScan (p ++ s) i j = some (a, e)) (hlt : i + p.length < a) :
    ∃ j', keyState p j = some j' ∧ classScan s (i + p.length) j' = some (a, e) := by
  induction p generalizing i j with
  | nil => exact ⟨j, rfl, by simpa using h⟩
  | cons c p ih =>
    simp only [List.cons_append, classScan] at h
    simp only [keyState]
    have hlen : i + (c :: p).length = i + 1 + p.length := by
      simp
      omega
    rw [hlen] at hlt ⊢
    by_cases hs : isSpace c = true
    · rw [if_pos hs] at h ⊢
      exact ih h hlt
    · rw [if_neg hs] at h ⊢
      by_cases hm : classPrefix[j]? = some c
      · rw [if_pos hm] at h ⊢
        by_cases hl : classPrefix.length = j + 1
        · rw [if_pos hl] at h
          exfalso
          cases hq : findQuote (p ++ s) (i + 1) with
          | none => simp [hq] at h
          | some m =>
            simp [hq] at h
            omega
        · rw [if_neg hl] at h ⊢
          exact ih h hlt
      · rw [if_neg hm] at h ⊢
        exact ih h hlt

theorem mem_quote_of_findQuote {v r : List Nat} {k m : Nat}
    (h : findQuote (v ++ r) k = some m) (hlt : m < k + v.length) : 34 ∈ v := by
  induction v generalizing k with
  | nil =>
    have := findQuote_bounds h
    simp at hlt
    omega
  | cons c v ih =>
    by_cases hc : c = 34
    · simp [hc]
    · simp only [List.cons_append, findQuote, if_neg hc] at h
      have hlt' : m < k + 1 + v.length := by
        simp at hlt
        omega
      have := ih h hlt'
      simp [this]

theorem classValue_append_of_mem {v : List Nat} (r : List Nat) (h : 34 ∈ v) :
    classValue (v ++ r) = classValue v := by
  induction v with
  | nil => simp at h
  | cons c v ih =>
    by_cases hc : c = 34
    · simp [classValue, hc]
    · have hv : 34 ∈ v := by
        rcases List.mem_cons.mp h with h1 | h1
        · exact absurd h1.symm hc
        · exact h1
      simp [classValue, hc, ih hv]

theorem classLoop_cons (c : Nat) (rest : List Nat) (j : Nat) :
    classLoop (c :: rest) j =
      if isSpace c then classLoop rest j
      else if classPrefix[j]? = some c then
        if classPrefix.length = j + 1 then (classValue rest).getD []
        else classLoop rest (j + 1)
      else classLoop rest 0 := by
  rw [classLoop]

theorem classScan_cons (c : Nat) (rest : List Nat) (i j : Nat) :
    classScan (c :: rest) i j =
      if isSpace c then classScan rest (i + 1) j
      else if classPrefix[j]? = some c then
        if classPrefix.length = j + 1 then
          (findQuote rest (i + 1)).map (fun k => (i + 1, k))
        else classScan rest (i + 1) (j + 1)
      else classScan rest (i + 1) 0 := by
  rw [classScan]

theorem classLoop_suffix_wsIns (v : List Nat) {r r' : List Nat} (h : WsIns r r') (i j : Nat)
    (hv : ∀ a e, classScan (v ++ r) i j = some (a, e) → e < i + v.length) :
    classLoop (v ++ r') j = classLoop (v ++ r) j := by
  induction v generalizing i j with
  | nil =>
    simp only [List.nil_append] at hv ⊢
    cases hsc : classScan r i j with
    | none =>
      rw [classLoop_of_classScan_none hsc,
        classLoop_of_classScan_none (classScan_none_of_wsIns h i i j hsc)]
    | some ae =>
      obtain ⟨a, e⟩ := ae
      have h1 := hv a e hsc
      have h2 := classScan_bounds hsc
      simp at h1
      omega
  | cons c v ih =>
    have hlen : i + (c :: v).length = i + 1 + v.length := by
      simp
      omega
    rw [hlen] at hv
    simp only [List.cons_append, classScan_cons] at hv
    rw [List.cons_append, List.cons_append, classLoop_cons, classLoop_cons]
    by_cases hs : isSpace c = true
    · simp only [if_pos hs] at hv ⊢
      exact ih (i + 1) j hv
    · simp only [if_neg hs] at hv ⊢
      by_cases hm : classPrefix[j]? = some c
      · simp only [if_pos hm] at hv ⊢
        by_cases hl : classPrefix.length = j + 1
        · simp only [if_pos hl] at hv ⊢
          cases hq : findQuote (v ++ r) (i + 1) with
          | none =>
            have h1 : 34 ∉ v ++ r := findQuote_eq_none.mp hq
            have h2 : 34 ∉ v ++ r' := by
              intro hmem
              apply h1
              rcases List.mem_append.mp hmem with h3 | h3
              · exact List.mem_append.mpr (Or.inl h3)
              · exact List.mem_append.mpr (Or.inr ((mem_quote_of_wsIns h).mp h3))
            rw [classValue_eq_none.mpr h1, classValue_eq_none.mpr h2]
          | some m =>
            have h1 := hv (i + 1) m (by rw [hq]; rfl)
            have h2 := mem_quote_of_findQuote hq h1
            rw [classValue_append_of_mem r h2, classValue_append_of_mem r' h2]
        · simp only [if_neg hl] at hv ⊢
          exact ih (i + 1) (j + 1) hv
      · simp only [if_neg hm] at hv ⊢
        exact ih (i + 1) 0 hv

theorem classValue_eq_take {l : List Nat} {k0 k : Nat} (h : findQuote l k0 = some k) :
    classValue l = some (l.take (k - k0)) := by
  induction l generalizing k0 with
  | nil => simp [findQuote] at h
  | cons c l ih =>
    by_cases hc : c = 34
    · simp [findQuote, hc] at h
      subst h
      simp [classValue, hc]
    · simp only [findQuote, if_neg hc] at h
      have hb := findQuote_bounds h
      have hk : k - k0 = (k - (k0 + 1)) + 1 := by omega
      rw [hk]
      simp [classValue, hc, ih h]

theorem classLoop_eq_slice (b : List Nat) (i j : Nat) :
    classLoop b j =
      match classScan b i j with
      | none => []
      | some (a, e) => (b.drop (a - i)).take (e - a) := by
  induction b generalizing i j with
  | nil => rfl
  | cons c b ih =>
    have hrec : ∀ j', classLoop b j' =
        match classScan b (i + 1) j' with
        | none => []
        | some (a, e) => ((c :: b).drop (a - i)).take (e - a) := by
      intro j'
      rw [ih (i + 1) j']
      cases hsc : classScan b (i + 1) j' with
      | none => rfl
      | some ae =>
        obtain ⟨a, e⟩ := ae
        have hb := classScan_bounds hsc
        have ha : a - i = (a - (i + 1)) + 1 := by omega
        simp only [ha, List.drop_succ_cons]
    rw [classLoop_cons, classScan_cons]
    by_cases hs : isSpace c = true
    · simp only [if_pos hs]
      exact hrec j
    · simp only [if_neg hs]
      by_cases hm : classPrefix[j]? = some c
      · simp only [if_pos hm]
        by_cases hl : classPrefix.length = j + 1
        · simp only [if_pos hl]
          cases hq : findQuote b (i + 1) with
          | none =>
            rw [classValue_eq_none.mpr (findQuote_eq_none.mp hq)]
            rfl
          | some k =>
            rw [classValue_eq_take hq]
            simp
        · simp only [if_neg hl]
          exact hrec (j + 1)
      · simp only [if_neg hm]
        exact hrec 0

/-- The result of `class` is the slice `b[i+1 : k]` at the bounds given by
`classSpan`, and the empty string when there are none. -/
theorem classOf_eq_slice (b : List Nat) :
    classOf b =
      match classSpan b with
      | none => []
      | some (a, e) => (b.drop a).take (e - a) :=
  classLoop_eq_slice b 0 0

/-! ## Claims on `class` -/

/-- C1: `class` is whitespace-insensitive.  When the frame `p ++ v ++ r` is
changed by inserting space, tab, CR or LF bytes anywhere in `p` and anywhere
in `r`, where the class value that `class` slices out (with the quote before
it and the quote closing it) lies inside the untouched part `v`, the result
of `class` does not change. -/
theorem classOf_whitespace_insensitive (p p' v r r' : List Nat)
    (hp : WsIns p p') (hr : WsIns r r')
    (hv : ∀ a e, classSpan (p ++ v ++ r) = some (a, e) →
      p.length < a ∧ e < p.length + v.length) :
    classOf (p' ++ v ++ r') = classOf (p ++ v ++ r) := by
  cases hsc : classSpan (p ++ v ++ r) with
  | none =>
    have hw : WsIns (p ++ v ++ r) (p' ++ v ++ r') :=
      wsIns_append (wsIns_append hp (wsIns_refl v)) hr
    have h1 := classLoop_of_classScan_none hsc
    have h2 := classLoop_of_classScan_none (classScan_none_of_wsIns hw 0 0 0 hsc)
    unfold classOf
    rw [h1, h2]
  | some ae =>
    obtain ⟨a, e⟩ := ae
    obtain ⟨h1, h2⟩ := hv a e hsc
    have hsc' : classScan (p ++ (v ++ r)) 0 0 = some (a, e) := by
      rw [← List.append_assoc]
      exact hsc
    obtain ⟨j', hk, hs⟩ := keyState_of_classScan hsc' (by omega)
    have hk' : keyState p' 0 = some j' := by
      rw [keyState_of_wsIns hp]
      exact hk
    unfold classOf
    rw [List.append_assoc, List.append_assoc, classLoop_append_of_keyState _ hk,
      classLoop_append_of_keyState _ hk']
    refine classLoop_suffix_wsIns v hr (0 + p.length) j' ?_
    intro a' e' h'
    rw [hs] at h'
    cases h'
    omega

/-- C1, witness: the tab inserted after the colon of the key in
`{"class":"WATCH","enable":true}` and the blanks inserted after `{` and after
the colon in `{"class":"SKY","device":"/dev/ttyUSB0"}`. -/
theorem classOf_whitespace_insensitive_witness :
    classOf (bytes "\x7b\"class\":\t" ++ bytes "\"WATCH\"" ++ bytes ",\"enable\":true\x7d")
      = classOf (bytes "\x7b\"class\":" ++ bytes "\"WATCH\"" ++ bytes ",\"enable\":true\x7d")
    ∧ classOf (bytes "\x7b\"class\":\t\"WATCH\",\"enable\":true\x7d") = bytes "WATCH"
    ∧ classOf (bytes "\x7b   \"class\":   \"SKY\",\"device\":\"/dev/ttyUSB0\"\x7d") = bytes "SKY" :=
  ⟨classOf_whitespace_insensitive (bytes "\x7b\"class\":") (bytes "\x7b\"class\":\t")
      (bytes "\"WATCH\"") (bytes ",\"enable\":true\x7d") (bytes ",\"enable\":true\x7d")
      (wsIns_append (wsIns_refl (bytes "\x7b\"class\":")) (WsIns.ins 9 rfl WsIns.nil))
      (wsIns_refl _)
      (by
        intro a e h
        have h' : classSpan (bytes "\x7b\"class\":" ++ bytes "\"WATCH\""
            ++ bytes ",\"enable\":true\x7d") = some (10, 15) := by decide
        rw [h'] at h
        cases h
        decide),
    by decide, by decide⟩

/-- C2: `class` returns the class value wherever the key stands.  When `v`
has no `"`, the bytes `pre` without whitespace do not contain the key
`"class":"`, and `pre` is empty or its last non-whitespace byte is `{` or
`,`, then `class` of `pre ++ "class":" ++ v ++ " ++ rest` is `v`; and with no
`"` after the key at all the result is the empty string. -/
theorem classOf_key_value (pre v rest : List Nat) (hv : 34 ∉ v)
    (hpre : ¬ classPrefix <:+: strip pre)
    (hlast : pre = [] ∨ (strip pre).getLast? = some 123 ∨ (strip pre).getLast? = some 44) :
    classOf (pre ++ classPrefix ++ v ++ 34 :: rest) = v
    ∧ classOf (pre ++ classPrefix ++ v) = [] := by
  have hk : keyState pre 0 = some 0 := by
    rcases hlast with h | h
    · subst h
      rfl
    · obtain ⟨j', hj, hlt, hsuf⟩ :=
        keyState_of_no_key pre [] 0 (by omega) (by simp) (by simpa using hpre)
      have h0 := keyState_zero_of_last hlt (by simpa using hsuf) h
      rw [hj, h0]
  unfold classOf
  constructor
  · rw [List.append_assoc, List.append_assoc, classLoop_append_of_keyState _ hk,
      classLoop_key, classValue_append_quote v rest hv]
    rfl
  · rw [List.append_assoc, classLoop_append_of_keyState _ hk, classLoop_key,
      classValue_eq_none.mpr hv]
    rfl

/-- C2, witness: `{"class":"VERSION","release":"3.16"}` gives `VERSION`. -/
theorem classOf_key_value_witness :
    classOf (bytes "\x7b" ++ classPrefix ++ bytes "VERSION" ++ 34 :: bytes ",\"release\":\"3.16\"\x7d")
      = bytes "VERSION"
    ∧ classOf (bytes "\x7b" ++ classPrefix ++ bytes "VERSION") = [] :=
  classOf_key_value (bytes "\x7b") (bytes "VERSION") (bytes ",\"release\":\"3.16\"\x7d")
    (by decide) (by decide) (Or.inr (Or.inl (by decide)))

/-- C3: `class` of a frame lacking a class attribute is empty.  When the
bytes of `b` without space, tab, CR and LF do not contain `"class":"` as a
contiguous run, `class(b)` is the empty string. -/
theorem classOf_no_class_attribute (b : List Nat) (h : ¬ classPrefix <:+: strip b) :
    classOf b = [] := by
  obtain ⟨j', hk, _, _⟩ :=
    keyState_of_no_key b [] 0 (by omega) (by simp) (by simpa using h)
  have h1 := classLoop_append_of_keyState [] hk
  rw [List.append_nil] at h1
  unfold classOf
  rw [h1]
  cases j' <;> rfl

/-- C3, witness: `{"device":"/dev/ttyUSB0"}` has no class attribute. -/
theorem classOf_no_class_attribute_witness :
    ¬ classPrefix <:+: strip (bytes "\x7b\"device\":\"/dev/ttyUSB0\"\x7d")
    ∧ classOf (bytes "\x7b\"device\":\"/dev/ttyUSB0\"\x7d") = [] :=
  ⟨by decide, classOf_no_class_attribute _ (by decide)⟩

/-! ## Lemmas on `Stream` -/

theorem ite_append_right (c : Prop) [Decidable c] (s t : List Nat) :
    (if c then s ++ t else s) = s ++ (if c then t else []) := by
  split <;> simp

theorem renderTrace_append (a b : List (Nat × List Nat)) :
    renderTrace (a ++ b) = renderTrace a ++ renderTrace b := by
  induction a with
  | nil => rfl
  | cons x a ih => simp [renderTrace, ih]

theorem renderTrace_emit (flags bit : Nat) (t : List Nat) :
    renderTrace (emit flags bit t) = if flags &&& bit ≠ 0 then t else [] := by
  unfold emit
  split <;> simp [renderTrace]

theorem streamCmd_eq_trace (tbl : Nat → Bool) (flags : Nat) (devpath : List Nat) :
    streamCmd tbl flags devpath =
      bytes "?WATCH=\x7b"
        ++ (if flags &&& WATCH_DISABLE ≠ 0 then bytes "\"enable\":false"
            else bytes "\"enable\":true")
        ++ renderTrace (streamTrace tbl flags devpath) ++ bytes "\x7d" := by
  unfold streamCmd streamTrace
  by_cases hd : flags &&& WATCH_DISABLE ≠ 0
  · simp only [if_pos hd, ite_append_right]
    simp only [renderTrace_append, renderTrace_emit, List.append_assoc]
  · simp only [if_neg hd, ite_append_right]
    simp only [renderTrace_append, renderTrace_emit, List.append_assoc]

theorem map_fst_emit (flags bit : Nat) (t : List Nat) :
    (emit flags bit t).map Prod.fst = if flags &&& bit ≠ 0 then [bit] else [] := by
  unfold emit
  split <;> rfl

theorem ite_cons_sublist (c : Prop) [Decidable c] (b : Nat) {l l' : List Nat}
    (h : List.Sublist l l') : List.Sublist ((if c then [b] else []) ++ l) (b :: l') := by
  split
  · exact List.Sublist.cons₂ b h
  · exact List.Sublist.cons b h

theorem xor_enable_and (flags b : Nat) (hb : WATCH_ENABLE &&& b = 0) :
    (flags ^^^ WATCH_ENABLE) &&& b = flags &&& b := by
  rw [Nat.and_xor_distrib_right, hb, Nat.xor_zero]

theorem streamCmd_xor_enable (tbl : Nat → Bool) (flags : Nat) (devpath : List Nat) :
    streamCmd tbl (flags ^^^ WATCH_ENABLE) devpath = streamCmd tbl flags devpath := by
  simp only [streamCmd, xor_enable_and flags WATCH_DISABLE (by decide),
    xor_enable_and flags WATCH_JSON (by decide), xor_enable_and flags WATCH_NMEA (by decide),
    xor_enable_and flags WATCH_RARE (by decide), xor_enable_and flags WATCH_RAW (by decide),
    xor_enable_and flags WATCH_SCALED (by decide), xor_enable_and flags WATCH_TIMING (by decide),
    xor_enable_and flags WATCH_SPLIT24 (by decide), xor_enable_and flags WATCH_PPS (by decide),
    xor_enable_and flags WATCH_DEVICE (by decide)]

theorem streamCmd_prefix_enable (tbl : Nat → Bool) (flags : Nat) (devpath : List Nat) :
    (if flags &&& WATCH_DISABLE ≠ 0 then bytes "?WATCH=\x7b\"enable\":false"
      else bytes "?WATCH=\x7b\"enable\":true") <+: streamCmd tbl flags devpath := by
  rw [streamCmd_eq_trace]
  by_cases hd : flags &&& WATCH_DISABLE ≠ 0
  · rw [if_pos hd, if_pos hd]
    exact ⟨renderTrace (streamTrace tbl flags devpath) ++ bytes "\x7d", by
      simp only [List.append_assoc]
      rfl⟩
  · rw [if_neg hd, if_neg hd]
    exact ⟨renderTrace (streamTrace tbl flags devpath) ++ bytes "\x7d", by
      simp only [List.append_assoc]
      rfl⟩

theorem not_mem_ite_nil (c : Prop) [Decidable c] (x : Nat) (t : List Nat) (h : x ∉ t) :
    x ∉ (if c then t else []) := by
  split
  · exact h
  · simp

theorem letter_v_not_mem_streamCmd (tbl : Nat → Bool) (flags : Nat) (devpath : List Nat)
    (h : flags &&& WATCH_DISABLE ≠ 0 ∨ flags &&& WATCH_DEVICE = 0) :
    118 ∉ streamCmd tbl flags devpath := by
  rw [streamCmd_eq_trace]
  unfold streamTrace
  by_cases hd : flags &&& WATCH_DISABLE ≠ 0
  · simp only [if_pos hd, renderTrace_append, renderTrace_emit, List.mem_append, not_or]
    refine ⟨⟨⟨by decide, by decide⟩, ?_⟩, by decide⟩
    refine ⟨⟨⟨⟨⟨⟨⟨?_, ?_⟩, ?_⟩, ?_⟩, ?_⟩, ?_⟩, ?_⟩, ?_⟩ <;>
      exact not_mem_ite_nil _ _ _ (by decide)
  · have hdev : flags &&& WATCH_DEVICE = 0 := by
      rcases h with h | h
      · exact absurd h hd
      · exact h
    have hemit : ∀ t, emit flags WATCH_DEVICE t = [] := by
      intro t
      simp [emit, hdev]
    simp only [if_neg hd, hemit, List.append_nil, renderTrace_append, renderTrace_emit,
      List.mem_append, not_or]
    refine ⟨⟨⟨by decide, by decide⟩, ?_⟩, by decide⟩
    refine ⟨⟨⟨⟨⟨⟨⟨?_, ?_⟩, ?_⟩, ?_⟩, ?_⟩, ?_⟩, ?_⟩, ?_⟩ <;>
      exact not_mem_ite_nil _ _ _ (by decide)

theorem streamCmd_device_infix (tbl : Nat → Bool) (flags : Nat) (devpath : List Nat)
    (hd : flags &&& WATCH_DISABLE = 0) (hdev : flags &&& WATCH_DEVICE ≠ 0) :
    bytes ",\"device\":" ++ goQuote tbl devpath ++ bytes "\x7d" <:+ streamCmd tbl flags devpath := by
  rw [streamCmd_eq_trace]
  unfold streamTrace
  have hd' : ¬ (flags &&& WATCH_DISABLE ≠ 0) := fun h => h hd
  simp only [if_neg hd', renderTrace_append, renderTrace_emit, if_pos hdev, List.append_assoc]
  repeat (first | exact List.suffix_refl _ | refine List.IsSuffix.trans ?_ (List.suffix_append _ _))

/-! ## Claims on `Stream` -/

/-- C4: the command bytes that `Stream` hands to `Send` are exactly
`?WATCH={"enable":true,"json":true}` for `WATCH_ENABLE|WATCH_JSON` and
`?WATCH={"enable":false,"json":false}` for `WATCH_DISABLE|WATCH_JSON`, both
with an empty device path; for every flags value and device path the bytes
start with `?WATCH={"enable":` and end with `}`. -/
theorem streamCmd_watch_bytes (tbl : Nat → Bool) :
    streamCmd tbl (WATCH_ENABLE ||| WATCH_JSON) []
      = bytes "?WATCH=\x7b\"enable\":true,\"json\":true\x7d"
    ∧ streamCmd tbl (WATCH_DISABLE ||| WATCH_JSON) []
      = bytes "?WATCH=\x7b\"enable\":false,\"json\":false\x7d"
    ∧ ∀ (flags : Nat) (devpath : List Nat),
        bytes "?WATCH=\x7b\"enable\":" <+: streamCmd tbl flags devpath
        ∧ bytes "\x7d" <:+ streamCmd tbl flags devpath := by
  refine ⟨rfl, rfl, ?_⟩
  intro f devpath
  constructor
  · refine List.IsPrefix.trans ?_ (streamCmd_prefix_enable tbl f devpath)
    split <;> decide
  · rw [streamCmd_eq_trace]
    exact List.suffix_append _ _

/-- C5 (defect): the statement guarded by `WATCH_TIMING` appends the key
`scaled`.  With `WATCH_ENABLE|WATCH_TIMING`, where `WATCH_SCALED` is unset,
the command is `?WATCH={"enable":true,"scaled":true}`; with `WATCH_SCALED`
set as well the key `scaled` is there twice; the disable branch does the
same with `false`. -/
theorem streamCmd_timing_emits_scaled (tbl : Nat → Bool) :
    (WATCH_ENABLE ||| WATCH_TIMING) &&& WATCH_SCALED = 0
    ∧ streamCmd tbl (WATCH_ENABLE ||| WATCH_TIMING) []
      = bytes "?WATCH=\x7b\"enable\":true,\"scaled\":true\x7d"
    ∧ streamCmd tbl (WATCH_ENABLE ||| WATCH_SCALED ||| WATCH_TIMING) []
      = bytes "?WATCH=\x7b\"enable\":true,\"scaled\":true,\"scaled\":true\x7d"
    ∧ streamCmd tbl (WATCH_DISABLE ||| WATCH_TIMING) []
      = bytes "?WATCH=\x7b\"enable\":false,\"scaled\":false\x7d" :=
  ⟨rfl, rfl, rfl, rfl⟩

/-- C6: the device path is honoured only in the enable branch and only under
the device-scope bit.  The command contains the key `"device":` if and only
if `WATCH_DEVICE` is set and `WATCH_DISABLE` is not; when `WATCH_DISABLE` is
set or `WATCH_DEVICE` is unset the bytes are the same for every device path;
`WATCH_ENABLE|WATCH_DEVICE` with `/dev/ttyUSB0` gives
`?WATCH={"enable":true,"device":"/dev/ttyUSB0"}`. -/
theorem streamCmd_device_key (tbl : Nat → Bool) (flags : Nat) (devpath : List Nat) :
    (bytes "\"device\":" <:+: streamCmd tbl flags devpath
      ↔ (flags &&& WATCH_DEVICE ≠ 0 ∧ flags &&& WATCH_DISABLE = 0))
    ∧ ((flags &&& WATCH_DISABLE ≠ 0 ∨ flags &&& WATCH_DEVICE = 0) →
        ∀ d : List Nat, streamCmd tbl flags d = streamCmd tbl flags devpath)
    ∧ streamCmd tbl (WATCH_ENABLE ||| WATCH_DEVICE) (bytes "/dev/ttyUSB0")
      = bytes "?WATCH=\x7b\"enable\":true,\"device\":\"/dev/ttyUSB0\"\x7d" := by
  refine ⟨⟨?_, ?_⟩, ?_, rfl⟩
  · intro hin
    by_contra hcon
    have hor : flags &&& WATCH_DISABLE ≠ 0 ∨ flags &&& WATCH_DEVICE = 0 := by
      by_cases hd : flags &&& WATCH_DISABLE = 0
      · by_cases hv : flags &&& WATCH_DEVICE = 0
        · exact Or.inr hv
        · exact absurd ⟨hv, hd⟩ hcon
      · exact Or.inl hd
    have hmem : 118 ∈ streamCmd tbl flags devpath :=
      List.IsInfix.subset hin (by decide)
    exact letter_v_not_mem_streamCmd tbl flags devpath hor hmem
  · rintro ⟨hv, hd⟩
    have h1 := streamCmd_device_infix tbl flags devpath hd hv
    have h2 : bytes "\"device\":"
        <:+: bytes ",\"device\":" ++ goQuote tbl devpath ++ bytes "\x7d" :=
      ⟨[44], goQuote tbl devpath ++ bytes "\x7d", by
        simp only [List.append_assoc]
        rfl⟩
    exact List.IsInfix.trans h2 h1.isInfix
  · intro h d
    unfold streamCmd
    by_cases hd : flags &&& WATCH_DISABLE ≠ 0
    · simp only [if_pos hd]
    · have hv : ¬ (flags &&& WATCH_DEVICE ≠ 0) := by
        rcases h with h | h
        · exact absurd h hd
        · exact fun hne => hne h
      simp only [if_neg hd, if_neg hv]

/-- C6, witness: under `WATCH_DISABLE|WATCH_DEVICE` the path `/dev/ttyUSB0`
and the empty path give the same bytes. -/
theorem streamCmd_device_key_witness :
    streamCmd (fun _ => false) (WATCH_DISABLE ||| WATCH_DEVICE) []
      = streamCmd (fun _ => false) (WATCH_DISABLE ||| WATCH_DEVICE) (bytes "/dev/ttyUSB0") :=
  (streamCmd_device_key (fun _ => false) (WATCH_DISABLE ||| WATCH_DEVICE)
    (bytes "/dev/ttyUSB0")).2.1 (Or.inl (by decide)) []

/-- C7: disable takes priority over enable.  With both `WATCH_ENABLE` and
`WATCH_DISABLE` set the command starts with `?WATCH={"enable":false` and is
byte for byte the command for the same flags with `WATCH_ENABLE` cleared; for
all flags the `WATCH_ENABLE` bit does not change the output, and the disable
form is taken exactly when `WATCH_DISABLE` is set. -/
theorem streamCmd_disable_priority (tbl : Nat → Bool) (flags : Nat) (devpath : List Nat)
    (hE : flags &&& WATCH_ENABLE ≠ 0) (hD : flags &&& WATCH_DISABLE ≠ 0) :
    bytes "?WATCH=\x7b\"enable\":false" <+: streamCmd tbl flags devpath
    ∧ (flags ^^^ WATCH_ENABLE) &&& WATCH_ENABLE = 0
    ∧ streamCmd tbl flags devpath = streamCmd tbl (flags ^^^ WATCH_ENABLE) devpath
    ∧ ∀ (g : Nat) (d : List Nat),
        streamCmd tbl (g ^^^ WATCH_ENABLE) d = streamCmd tbl g d
        ∧ (bytes "?WATCH=\x7b\"enable\":false" <+: streamCmd tbl g d
            ↔ g &&& WATCH_DISABLE ≠ 0) := by
  refine ⟨?_, ?_, (streamCmd_xor_enable tbl flags devpath).symm, ?_⟩
  · have h := streamCmd_prefix_enable tbl flags devpath
    rw [if_pos hD] at h
    exact h
  · have h1 : flags &&& WATCH_ENABLE = 1 := by
      have h2 : flags &&& WATCH_ENABLE = flags % 2 := by
        show flags &&& 1 = flags % 2
        exact Nat.and_one_is_mod flags
      rw [h2] at hE ⊢
      omega
    rw [Nat.and_xor_distrib_right, h1]
    rfl
  · intro g d
    refine ⟨streamCmd_xor_enable tbl g d, ?_, ?_⟩
    · intro hp
      by_contra hd
      have h := streamCmd_prefix_enable tbl g d
      rw [if_neg (not_not.mpr hd)] at h
      have hlen : (bytes "?WATCH=\x7b\"enable\":true").length
          ≤ (bytes "?WATCH=\x7b\"enable\":false").length := by decide
      have hpp := List.prefix_of_prefix_length_le h hp hlen
      revert hpp
      decide
    · intro hd
      have h := streamCmd_prefix_enable tbl g d
      rw [if_pos hd] at h
      exact h

/-- C7, witness: `WATCH_ENABLE|WATCH_DISABLE|WATCH_JSON` gives the bytes of
`WATCH_DISABLE|WATCH_JSON`. -/
theorem streamCmd_disable_priority_witness :
    streamCmd (fun _ => false) (WATCH_ENABLE ||| WATCH_DISABLE ||| WATCH_JSON) []
      = streamCmd (fun _ => false)
          ((WATCH_ENABLE ||| WATCH_DISABLE ||| WATCH_JSON) ^^^ WATCH_ENABLE) []
    ∧ (WATCH_ENABLE ||| WATCH_DISABLE ||| WATCH_JSON) ^^^ WATCH_ENABLE
      = WATCH_DISABLE ||| WATCH_JSON :=
  ⟨(streamCmd_disable_priority (fun _ => false)
      (WATCH_ENABLE ||| WATCH_DISABLE ||| WATCH_JSON) [] (by decide) (by decide)).2.2.1,
    by decide⟩

/-- C8, counterexample: with `WATCH_ENABLE|WATCH_PPS|WATCH_DEVICE` the key
`pps` of bit `0x2000` comes before the key `device` of bit `0x0800`: the flag
bits of the keys after `enable` are not in increasing order. -/
theorem stream_pps_before_device :
    ¬ List.Pairwise (fun a b : Nat => a < b)
        ((streamTrace (fun _ => false) (WATCH_ENABLE ||| WATCH_PPS ||| WATCH_DEVICE)
          (bytes "/dev/ttyUSB0")).map Prod.fst)
    ∧ streamCmd (fun _ => false) (WATCH_ENABLE ||| WATCH_PPS ||| WATCH_DEVICE)
        (bytes "/dev/ttyUSB0")
      = bytes "?WATCH=\x7b\"enable\":true,\"pps\":true,\"device\":\"/dev/ttyUSB0\"\x7d" := by
  constructor
  · decide
  · rfl

/-- C8, amended: the keys after `enable` follow the order of the statements
of `Stream`, which is the order of the flag bits except that the key of
`WATCH_DEVICE` comes last: the flag bits of the appended keys are a
subsequence of `WATCH_JSON, WATCH_NMEA, WATCH_RARE, WATCH_RAW, WATCH_SCALED,
WATCH_TIMING, WATCH_SPLIT24, WATCH_PPS, WATCH_DEVICE`, strictly increasing
once `WATCH_DEVICE` is left out, and the command is `?WATCH={`, the `enable`
member, these appends and `}`, a function of the flags and the device path. -/
theorem streamCmd_key_order (tbl : Nat → Bool) (flags : Nat) (devpath : List Nat) :
    List.Sublist ((streamTrace tbl flags devpath).map Prod.fst)
      [WATCH_JSON, WATCH_NMEA, WATCH_RARE, WATCH_RAW, WATCH_SCALED, WATCH_TIMING,
        WATCH_SPLIT24, WATCH_PPS, WATCH_DEVICE]
    ∧ List.Pairwise (fun a b : Nat => a < b)
        (((streamTrace tbl flags devpath).map Prod.fst).filter (fun b => b != WATCH_DEVICE))
    ∧ streamCmd tbl flags devpath =
        bytes "?WATCH=\x7b"
          ++ (if flags &&& WATCH_DISABLE ≠ 0 then bytes "\"enable\":false"
              else bytes "\"enable\":true")
          ++ renderTrace (streamTrace tbl flags devpath) ++ bytes "\x7d" := by
  have hsub : List.Sublist ((streamTrace tbl flags devpath).map Prod.fst)
      [WATCH_JSON, WATCH_NMEA, WATCH_RARE, WATCH_RAW, WATCH_SCALED, WATCH_TIMING,
        WATCH_SPLIT24, WATCH_PPS, WATCH_DEVICE] := by
    unfold streamTrace
    by_cases hd : flags &&& WATCH_DISABLE ≠ 0
    · simp only [if_pos hd, List.map_append, map_fst_emit, List.append_assoc]
      refine ite_cons_sublist _ _ (ite_cons_sublist _ _ (ite_cons_sublist _ _
        (ite_cons_sublist _ _ (ite_cons_sublist _ _ (ite_cons_sublist _ _
        (ite_cons_sublist _ _ ?_))))))
      have h := ite_cons_sublist (flags &&& WATCH_PPS ≠ 0) WATCH_PPS
        (List.nil_sublist [WATCH_DEVICE])
      rw [List.append_nil] at h
      exact h
    · simp only [if_neg hd, List.map_append, map_fst_emit, List.append_assoc]
      refine ite_cons_sublist _ _ (ite_cons_sublist _ _ (ite_cons_sublist _ _
        (ite_cons_sublist _ _ (ite_cons_sublist _ _ (ite_cons_sublist _ _
        (ite_cons_sublist _ _ (ite_cons_sublist _ _ ?_)))))))
      have h := ite_cons_sublist (flags &&& WATCH_DEVICE ≠ 0) WATCH_DEVICE
        (List.nil_sublist [])
      rw [List.append_nil] at h
      exact h
  refine ⟨hsub, ?_, streamCmd_eq_trace tbl flags devpath⟩
  have hf := List.Sublist.filter (fun b => b != WATCH_DEVICE) hsub
  refine List.Pairwise.sublist hf ?_
  decide

/-- C9 (defect): `%q` quotes in Go syntax, not in JSON syntax.  For the
device path of the single byte `0x01` under `WATCH_ENABLE|WATCH_DEVICE` the
command is `?WATCH={"enable":true,"device":"\x01"}`: the value after
`"device":` is `"\x01"`, which is not a JSON string literal; the same for
the byte `0x7f`, for the invalid UTF-8 byte `0xff` and for the bell `0x07`. -/
theorem streamCmd_device_quote_not_json (tbl : Nat → Bool) :
    streamCmd tbl (WATCH_ENABLE ||| WATCH_DEVICE) [1]
      = bytes "?WATCH=\x7b\"enable\":true,\"device\":\"\\x01\"\x7d"
    ∧ goQuote tbl [1] = bytes "\"\\x01\""
    ∧ isJsonString (goQuote tbl [1]) = false
    ∧ goQuote tbl [0x7f] = bytes "\"\\x7f\""
    ∧ isJsonString (goQuote tbl [0x7f]) = false
    ∧ goQuote tbl [0xff] = bytes "\"\\xff\""
    ∧ isJsonString (goQuote tbl [0xff]) = false
    ∧ goQuote tbl [7] = bytes "\"\\a\""
    ∧ isJsonString (goQuote tbl [7]) = false
    ∧ isJsonString (goQuote tbl (bytes "/dev/ttyUSB0")) = true :=
  ⟨rfl, rfl, rfl, rfl, rfl, rfl, rfl, rfl, rfl, rfl⟩

/-! ## Claims on `close` -/

/-- C10 (defect): once a `Send` has met a write error, closing does nothing.
The session left by that `Send` is reachable and open (no stored error,
`done` open), but its mutex is never released: `Close()` blocks and records
no `ErrClosed`, and on a read error the `close` of `rx` blocks, so that `Err`
still returns nil.  While the mutex is free, closing is once-only and the
first error wins: `close(e2)` after `close(e1)` returns nil and leaves the
session as it was after `close(e1)`, with the stored error `e1`, `done`
closed once and the connection closed once; after a read error `e` the
accessor `Err` returns `e` and a later `Close()` changes nothing and returns
nil; `Close()` records `ErrClosed`. -/
theorem close_blocked_after_failed_send (k : Conn) (conn : Option Conn)
    (cerr : Option GoError) (ec : Nat) (b : List Nat) (e0 e : GoError)
    (e1 e2 : Option GoError) :
    (((Session.mk (Client.mk none (some k) 0 0) false).Send b (some e0)).after
        = Session.mk (Client.mk none (some k) 0 0) true
      ∧ Reachable (Session.mk (Client.mk none (some k) 0 0) true)
      ∧ (Session.mk (Client.mk none (some k) 0 0) true).Close
          = (Session.mk (Client.mk none (some k) 0 0) true, Ret.blocked)
      ∧ ((Session.mk (Client.mk none (some k) 0 0) true).Close).1.c.Err = none
      ∧ (Session.mk (Client.mk none (some k) 0 0) true).close (some e)
          = (Session.mk (Client.mk none (some k) 0 0) true, Ret.blocked)
      ∧ ((Session.mk (Client.mk none (some k) 0 0) true).rxFail e).c.Err = none)
    ∧ (((Session.mk (Client.mk cerr conn 0 ec) false).close e1).1.close e2
          = (((Session.mk (Client.mk cerr conn 0 ec) false).close e1).1, Ret.returned none)
      ∧ ((Session.mk (Client.mk cerr conn 0 ec) false).close e1).1.c.err = e1
      ∧ ((Session.mk (Client.mk cerr conn 0 ec) false).close e1).1.c.doneCloses = 1
      ∧ ((Session.mk (Client.mk cerr conn 0 ec) false).close e1).1.c.conn
          = conn.map (fun q => { q with closeCalls := q.closeCalls + 1 })
      ∧ ((Session.mk (Client.mk cerr conn 0 ec) false).rxFail e).c.Err = some e
      ∧ ((Session.mk (Client.mk cerr conn 0 ec) false).rxFail e).Close
          = ((Session.mk (Client.mk cerr conn 0 ec) false).rxFail e, Ret.returned none)
      ∧ ((Session.mk (Client.mk cerr conn 0 ec) false).rxFail e).c.evchCloses = ec + 1
      ∧ ((Session.mk (Client.mk cerr conn 0 ec) false).Close).1.c.Err = some ErrClosed) := by
  refine ⟨⟨rfl, ?_, rfl, rfl, rfl, rfl⟩, ?_⟩
  · exact Reachable.Send b (some e0) (Reachable.new k)
  · cases conn <;>
      simp [Session.close, Session.Close, Session.rxFail, Client.close, Client.Err,
        Client.rxReadError]

/-! ## Lemmas on `Send` and `rx` -/

theorem reachable_done_closed {s : Session} (h : Reachable s) (hd : 0 < s.c.doneCloses) :
    s.c.err ≠ none ∧ s.mu = false := by
  induction h with
  | new k => simp at hd
  | @Close s _ ih =>
    unfold Session.Close Session.close at hd ⊢
    by_cases hm : s.mu = true
    · simp only [hm, if_true] at hd
      have hf := (ih hd).2
      rw [hm] at hf
      cases hf
    · simp only [hm] at hd ⊢
      by_cases h0 : 0 < s.c.doneCloses
      · have := ih h0
        simp [Client.close, h0, this.1]
      · cases hc : s.c.conn <;> simp [Client.close, h0, hc]
  | @rxFail s err _ ih =>
    unfold Session.rxFail at hd ⊢
    by_cases hm : s.mu = true
    · simp only [hm, if_true] at hd
      have hf := (ih hd).2
      rw [hm] at hf
      cases hf
    · simp only [hm] at hd ⊢
      by_cases h0 : 0 < s.c.doneCloses
      · have := ih h0
        simp [Client.rxReadError, Client.close, h0, this.1]
      · cases hc : s.c.conn <;> simp [Client.rxReadError, Client.close, h0, hc]
  | @Send s b w _ ih =>
    unfold Session.Send at hd ⊢
    by_cases hm : s.mu = true
    · simp only [hm, if_true] at hd
      have hf := (ih hd).2
      rw [hm] at hf
      cases hf
    · simp only [hm] at hd ⊢
      cases he : s.c.err with
      | some e =>
        simp only [he] at hd ⊢
        have := ih hd
        exact ⟨by simp [he], this.2⟩
      | none =>
        simp only [he] at hd ⊢
        cases hc : s.c.conn with
        | none =>
          simp only [hc] at hd ⊢
          exact absurd he (ih hd).1
        | some k =>
          simp only [hc] at hd ⊢
          cases w with
          | none =>
            simp only at hd ⊢
            exact absurd he (ih hd).1
          | some e =>
            simp only at hd ⊢
            exact absurd he (ih hd).1

theorem trimCR_of_newline {buf : List Nat} {b : BufSlice}
    (h : (b.bytes buf).getLast? = some 10) : trimCR buf b = some b := by
  unfold trimCR
  rw [h]
  simp

theorem rxFrame_of_line {P : Type} (tbl : Nat → Bool)
    (dec : Kind → List Nat → Except GoError (List Nat × P))
    {buf : List Nat} {b : BufSlice} {c : Nat} {t : List Nat}
    (hb : b.bytes buf = c :: t) (hnl : (b.bytes buf).getLast? = some 10) :
    rxFrame tbl dec buf b =
      if c = 123 then
        match unmarshal tbl dec (classOf (c :: t)) (c :: t) with
        | Except.error _ => some none
        | Except.ok v => some (some v)
      else some (some (Report.RAW b)) := by
  unfold rxFrame
  rw [trimCR_of_newline hnl]
  simp only [hb]

/-! ## Claims on `Send` -/

/-- C11: `Send` on a closed session fails with the stored terminal error and
writes nothing.  In every session reachable from a fresh one through
`Close()`, read errors of the receive loop and `Send` calls, once `done` is
closed the stored error is not nil, and `Send(b)` returns that error, calls
no `Write` and leaves the session as it was. -/
theorem send_on_closed_session (s : Session) (h : Reachable s) (hd : 0 < s.c.doneCloses)
    (b : List Nat) (w : Option GoError) :
    s.c.err ≠ none
    ∧ s.Send b w = { after := s, ret := Ret.returned s.c.err, writes := [] } := by
  obtain ⟨he, hm⟩ := reachable_done_closed h hd
  refine ⟨he, ?_⟩
  unfold Session.Send
  cases hc : s.c.err with
  | none => exact absurd hc he
  | some e => simp [hm]

/-- C11, witness: a fresh session closed by the caller; `Send` then returns
`ErrClosed` and writes nothing. -/
theorem send_on_closed_session_witness :
    ((Session.mk (Client.mk none (some (Conn.mk none 0)) 0 0) false).Close).1.Send
        (bytes "?POLL;") none
      = { after := ((Session.mk (Client.mk none (some (Conn.mk none 0)) 0 0) false).Close).1,
          ret := Ret.returned (some ErrClosed), writes := [] } :=
  (send_on_closed_session _ (Reachable.Close (Reachable.new (Conn.mk none 0))) (by decide)
    (bytes "?POLL;") none).2

/-- C12 (defect): a write failure in `Send` never reaches `close`.  On an
open session whose `Write` fails with `e`, `Send` has written `b` and holds
`c.mu` when it calls `c.close(e)`, which waits for `c.mu`: the call blocks,
no error is stored, `done` and the connection stay open, and every later
`Send` and `Close()` blocks as well. -/
theorem send_write_error_blocks (k : Conn) (ec : Nat) (b : List Nat) (e : GoError) :
    (Session.mk (Client.mk none (some k) 0 ec) false).Send b (some e)
      = { after := Session.mk (Client.mk none (some k) 0 ec) true,
          ret := Ret.blocked, writes := [b] }
    ∧ (∀ (b1 : List Nat) (w : Option GoError),
        ((Session.mk (Client.mk none (some k) 0 ec) true).Send b1 w).ret = Ret.blocked)
    ∧ ((Session.mk (Client.mk none (some k) 0 ec) true).Close).2 = Ret.blocked := by
  refine ⟨rfl, ?_, rfl⟩
  intro b1 w
  rfl

/-! ## Claims on `rx` -/

/-- The trim of `rx` never runs: the slice read ends with `\n`, so its last
byte is never `\r`.  The line `$GPGGA,...` followed by `\r\n` goes to the
`select` as the `RAW` of the whole slice, `\r\n` included, and the trim
leaves every slice that ends with `\r\n` as it is. -/
theorem rx_trim_never_runs {P : Type} (tbl : Nat → Bool)
    (dec : Kind → List Nat → Except GoError (List Nat × P))
    (conn : Option Conn) (ec : Nat) (pick : Bool) :
    (Session.mk (Client.mk none conn 0 ec) false).rxStep tbl dec
        (ReadResult.line (bytes "$GPGGA,...\r\n") (BufSlice.mk 0 12)) pick
      = some { after := Session.mk (Client.mk none conn 0 ec) false,
               published := [Report.RAW (BufSlice.mk 0 12)], running := true }
    ∧ (BufSlice.mk 0 12).bytes (bytes "$GPGGA,...\r\n") = bytes "$GPGGA,...\r\n"
    ∧ ∀ (buf : List Nat) (b : BufSlice) (content : List Nat),
        b.bytes buf = content ++ [13, 10] → trimCR buf b = some b := by
  refine ⟨?_, rfl, ?_⟩
  · cases pick <;> rfl
  · intro buf b content hb
    exact trimCR_of_newline (by rw [hb]; simp)

/-- A `RAW` report shares the buffer of the reader: two lines read one after
the other into the same place of the buffer are published as the same slice,
and the bytes of the first report are those of the second line once the
second read has filled the buffer. -/
theorem raw_report_shares_buffer :
    Session.rxRun (fun _ => false)
        (fun _ _ => (Except.error (GoError.other 0) : Except GoError (List Nat × Unit)))
        (Session.mk (Client.mk none (some (Conn.mk none 0)) 0 0) false)
        [(ReadResult.line (bytes "$GPGGA\n") (BufSlice.mk 0 7), true),
          (ReadResult.line (bytes "$GPRMC\n") (BufSlice.mk 0 7), true)]
      = some (Session.mk (Client.mk none (some (Conn.mk none 0)) 0 0) false,
          [Report.RAW (BufSlice.mk 0 7), Report.RAW (BufSlice.mk 0 7)])
    ∧ (BufSlice.mk 0 7).bytes (bytes "$GPGGA\n") = bytes "$GPGGA\n"
    ∧ (BufSlice.mk 0 7).bytes (bytes "$GPRMC\n") = bytes "$GPRMC\n" := by
  decide

/-- C13, counterexample: the line `$GPGGA,...` followed by `\n` is published
as the slice that was read, whose bytes are the content bytes and the
newline, not the content bytes alone. -/
theorem rx_raw_line_not_content :
    (Session.mk (Client.mk none (some (Conn.mk none 0)) 0 0) false).rxStep (fun _ => false)
        (fun _ _ => (Except.error (GoError.other 0) : Except GoError (List Nat × Unit)))
        (ReadResult.line (bytes "$GPGGA,...\n") (BufSlice.mk 0 11)) true
      = some { after := Session.mk (Client.mk none (some (Conn.mk none 0)) 0 0) false,
               published := [Report.RAW (BufSlice.mk 0 11)], running := true }
    ∧ (BufSlice.mk 0 11).bytes (bytes "$GPGGA,...\n") = bytes "$GPGGA,...\n"
    ∧ (BufSlice.mk 0 11).bytes (bytes "$GPGGA,...\n") ≠ bytes "$GPGGA,..." := by
  decide

/-- C13, amended: a non-JSON line that ends with `\n` alone is published as
the `RAW` of the slice as read.  When the slice read holds content bytes that
are not empty, do not begin with `{` and do not end with `\r`, followed by
`\n`, the turn of the receive loop on an open session publishes exactly one
report, the `RAW` of that very slice of the reader's buffer, untrimmed, whose
bytes at that time are the content bytes followed by the newline; the
session is left as it was.  Nothing is said of the bytes of the slice after
the next read. -/
theorem rx_raw_line {P : Type} (tbl : Nat → Bool)
    (dec : Kind → List Nat → Except GoError (List Nat × P))
    (s : Session) (pick : Bool) (buf : List Nat) (b : BufSlice) (content : List Nat)
    (hline : b.bytes buf = content ++ [10])
    (hne : content ≠ []) (hraw : content.head? ≠ some 123)
    (hcr : content.getLast? ≠ some 13) (hopen : s.c.doneCloses = 0) :
    s.rxStep tbl dec (ReadResult.line buf b) pick
      = some { after := s, published := [Report.RAW b], running := true } := by
  cases content with
  | nil => exact absurd rfl hne
  | cons c t =>
    have hc : ¬ c = 123 := by
      intro h
      apply hraw
      simp [h]
    have hnl : (b.bytes buf).getLast? = some 10 := by
      rw [hline, List.getLast?_append]
      rfl
    have hb : b.bytes buf = c :: (t ++ [10]) := by
      rw [hline]
      rfl
    simp only [Session.rxStep, rxFrame_of_line tbl dec hb hnl, if_neg hc, hopen]
    simp

/-- C13, witness: a fresh session reads `$GPGGA,...` followed by `\n`. -/
theorem rx_raw_line_witness :
    (Session.mk (Client.mk none (some (Conn.mk none 0)) 0 0) false).rxStep (fun _ => false)
        (fun _ _ => (Except.error (GoError.other 0) : Except GoError (List Nat × Unit)))
        (ReadResult.line (bytes "$GPGGA,...\n") (BufSlice.mk 0 11)) true
      = some { after := Session.mk (Client.mk none (some (Conn.mk none 0)) 0 0) false,
               published := [Report.RAW (BufSlice.mk 0 11)], running := true } :=
  rx_raw_line _ _ _ true (bytes "$GPGGA,...\n") (BufSlice.mk 0 11) (bytes "$GPGGA,...")
    (by decide) (by decide) (by decide) (by decide) rfl

/-- C14, counterexample: the empty line `\n` is not skipped; `rx` publishes
a `RAW` report for it. -/
theorem rx_empty_line_published :
    (Session.mk (Client.mk none (some (Conn.mk none 0)) 0 0) false).rxStep (fun _ => false)
        (fun _ _ => (Except.error (GoError.other 0) : Except GoError (List Nat × Unit)))
        (ReadResult.line [10] (BufSlice.mk 0 1)) true
      ≠ some { after := Session.mk (Client.mk none (some (Conn.mk none 0)) 0 0) false,
               published := [], running := true } := by
  decide

/-- C14, amended: for the inbound line `\n`, which is empty once its
terminator is removed, the receive loop does not fail and leaves the session
as it was, open, so that the next frame is read; it publishes one report, the
`RAW` of the one-byte slice of the reader's buffer that was read.  Nothing is
said of the bytes of the slice after the next read. -/
theorem rx_empty_line {P : Type} (tbl : Nat → Bool)
    (dec : Kind → List Nat → Except GoError (List Nat × P))
    (s : Session) (pick : Bool) (buf : List Nat) (b : BufSlice)
    (hline : b.bytes buf = [10]) (hopen : s.c.doneCloses = 0) :
    s.rxStep tbl dec (ReadResult.line buf b) pick
      = some { after := s, published := [Report.RAW b], running := true } := by
  have hnl : (b.bytes buf).getLast? = some 10 := by
    rw [hline]
    rfl
  have hc : ¬ (10 = 123) := by decide
  simp only [Session.rxStep, rxFrame_of_line tbl dec hline hnl, if_neg hc, hopen]
  simp

/-- C14, witness: a fresh session reads the line `\n`. -/
theorem rx_empty_line_witness :
    (Session.mk (Client.mk none (some (Conn.mk none 0)) 0 0) false).rxStep (fun _ => false)
        (fun _ _ => (Except.error (GoError.other 0) : Except GoError (List Nat × Unit)))
        (ReadResult.line [10] (BufSlice.mk 0 1)) true
      = some { after := Session.mk (Client.mk none (some (Conn.mk none 0)) 0 0) false,
               published := [Report.RAW (BufSlice.mk 0 1)], running := true } :=
  rx_empty_line _ _ _ true [10] (BufSlice.mk 0 1) (by decide) rfl

/-- C15: a decode failure never terminates the session and publishes
nothing.  For a line read that begins with `{` and for which
`unmarshal(class(b), b)` returns an error, the turn of the receive loop
publishes no report, leaves the session as it was and goes on; the loop over
this line and further reads does what it does over the further reads alone.
The line is any slice `b` of the reader's buffer `buf`, with its bytes at the
time of the read. -/
theorem rx_decode_failure {P : Type} (tbl : Nat → Bool)
    (dec : Kind → List Nat → Except GoError (List Nat × P))
    (s : Session) (buf : List Nat) (b : BufSlice) (pick : Bool) (e : UnmarshalError)
    (hnl : (b.bytes buf).getLast? = some 10) (hjson : (b.bytes buf).head? = some 123)
    (herr : unmarshal tbl dec (classOf (b.bytes buf)) (b.bytes buf) = Except.error e) :
    s.rxStep tbl dec (ReadResult.line buf b) pick
      = some { after := s, published := [], running := true }
    ∧ ∀ rest : List (ReadResult × Bool),
        Session.rxRun tbl dec s ((ReadResult.line buf b, pick) :: rest)
          = Session.rxRun tbl dec s rest := by
  have hstep : s.rxStep tbl dec (ReadResult.line buf b) pick
      = some { after := s, published := [], running := true } := by
    cases hb : b.bytes buf with
    | nil =>
      rw [hb] at hjson
      simp at hjson
    | cons c t =>
      rw [hb] at hjson herr
      simp only [List.head?_cons, Option.some.injEq] at hjson
      subst hjson
      simp only [Session.rxStep, rxFrame_of_line tbl dec hb hnl, if_true, herr]
  refine ⟨hstep, ?_⟩
  intro rest
  rw [Session.rxRun, hstep]
  simp only [if_true, List.nil_append]
  cases Session.rxRun tbl dec s rest <;> rfl

/-- C15, witness: the frame `{"class":"UNKNOWN"}` with an unknown class
tag, read by a fresh session, followed by a read error. -/
theorem rx_decode_failure_witness :
    Session.rxRun (fun _ => false)
        (fun _ _ => (Except.error (GoError.other 0) : Except GoError (List Nat × Unit)))
        (Session.mk (Client.mk none (some (Conn.mk none 0)) 0 0) false)
        [(ReadResult.line (bytes "\x7b\"class\":\"UNKNOWN\"\x7d\n") (BufSlice.mk 0 20), true),
          (ReadResult.fail (GoError.other 1), true)]
      = Session.rxRun (fun _ => false)
        (fun _ _ => (Except.error (GoError.other 0) : Except GoError (List Nat × Unit)))
        (Session.mk (Client.mk none (some (Conn.mk none 0)) 0 0) false)
        [(ReadResult.fail (GoError.other 1), true)] :=
  (rx_decode_failure (fun _ => false) _ _ (bytes "\x7b\"class\":\"UNKNOWN\"\x7d\n")
    (BufSlice.mk 0 20) true
    (UnmarshalError.unknownClass (bytes "unknown class \"UNKNOWN\""))
    (by decide) (by decide) rfl).2 _

/-- C20: the frame handling of the receive loop never indexes out of range.
For every slice that a successful read returns, non-empty and ending with
`\n`, the trim leaves the slice as it is without slicing, the body of the
loop up to the `select` does not panic, and the turn of the loop is defined. -/
theorem rx_no_index_out_of_range {P : Type} (tbl : Nat → Bool)
    (dec : Kind → List Nat → Except GoError (List Nat × P))
    (buf : List Nat) (b : BufSlice)
    (hne : b.bytes buf ≠ []) (hnl : (b.bytes buf).getLast? = some 10) :
    trimCR buf b = some b
    ∧ (rxFrame tbl dec buf b).isSome = true
    ∧ ∀ (s : Session) (pick : Bool),
        (s.rxStep tbl dec (ReadResult.line buf b) pick).isSome = true := by
  have hframe : (rxFrame tbl dec buf b).isSome = true := by
    cases hb : b.bytes buf with
    | nil => exact absurd hb hne
    | cons c t =>
      rw [rxFrame_of_line tbl dec hb hnl]
      split
      · cases unmarshal tbl dec (classOf (c :: t)) (c :: t) <;> rfl
      · rfl
  refine ⟨trimCR_of_newline hnl, hframe, ?_⟩
  intro s pick
  simp only [Session.rxStep]
  cases hf : rxFrame tbl dec buf b with
  | none => simp [hf] at hframe
  | some o =>
    cases o with
    | none => rfl
    | some v =>
      simp only
      split <;> rfl

/-- C20, witness: the one-byte line `\n` and the two-byte line `\r\n`. -/
theorem rx_no_index_out_of_range_witness :
    trimCR [10] (BufSlice.mk 0 1) = some (BufSlice.mk 0 1)
    ∧ trimCR [13, 10] (BufSlice.mk 0 2) = some (BufSlice.mk 0 2)
    ∧ (rxFrame (fun _ => false)
        (fun _ _ => (Except.error (GoError.other 0) : Except GoError (List Nat × Unit)))
        [13, 10] (BufSlice.mk 0 2)).isSome = true :=
  ⟨(rx_no_index_out_of_range (fun _ => false)
      (fun _ _ => (Except.error (GoError.other 0) : Except GoError (List Nat × Unit)))
      [10] (BufSlice.mk 0 1) (by decide) rfl).1,
    (rx_no_index_out_of_range (fun _ => false)
      (fun _ _ => (Except.error (GoError.other 0) : Except GoError (List Nat × Unit)))
      [13, 10] (BufSlice.mk 0 2) (by decide) rfl).1,
    (rx_no_index_out_of_range (fun _ => false)
      (fun _ _ => (Except.error (GoError.other 0) : Except GoError (List Nat × Unit)))
      [13, 10] (BufSlice.mk 0 2) (by decide) rfl).2.1⟩

/-! ## Lemmas on `unmarshal` -/

theorem dispatch_eq_none_iff (cls : List Nat) : dispatch cls = none ↔ cls ∉ knownTags := by
  constructor
  · intro h hmem
    unfold knownTags at hmem
    simp only [List.mem_cons, List.mem_singleton, List.not_mem_nil, or_false] at hmem
    rcases hmem with h1 | h1 | h1 | h1 | h1 | h1 | h1 | h1 | h1 | h1 | h1 | h1 | h1 <;>
      (subst h1; revert h; decide)
  · intro h
    have hne : ∀ t, t ∈ knownTags → ¬ (cls = t) := fun t ht e => h (e ▸ ht)
    unfold dispatch
    rw [if_neg (hne (bytes "TPV") (by decide)),
      if_neg (hne (bytes "SKY") (by decide)),
      if_neg (hne (bytes "GST") (by decide)),
      if_neg (hne (bytes "ATT") (by decide)),
      if_neg (hne (bytes "VERSION") (by decide)),
      if_neg (hne (bytes "DEVICES") (by decide)),
      if_neg (hne (bytes "WATCH") (by decide)),
      if_neg (hne (bytes "POLL") (by decide)),
      if_neg (hne (bytes "TOFF") (by decide)),
      if_neg (hne (bytes "PPS") (by decide)),
      if_neg (hne (bytes "OSC") (by decide)),
      if_neg (hne (bytes "DEVICE") (by decide)),
      if_neg (hne (bytes "ERROR") (by decide))]

theorem dispatch_name (k : Kind) : dispatch k.name = some k := by
  cases k <;> rfl

theorem unmarshal_unknown_iff {P : Type} (tbl : Nat → Bool)
    (dec : Kind → List Nat → Except GoError (List Nat × P)) (cls b : List Nat) :
    (∃ m, unmarshal tbl dec cls b = Except.error (UnmarshalError.unknownClass m))
      ↔ dispatch cls = none := by
  unfold unmarshal
  cases hd : dispatch cls with
  | none => simp
  | some k =>
    cases hdec : dec k b <;> simp [hdec]

theorem unmarshal_of_dispatch_none {P : Type} (tbl : Nat → Bool)
    (dec : Kind → List Nat → Except GoError (List Nat × P)) (cls b : List Nat)
    (h : dispatch cls = none) :
    unmarshal tbl dec cls b
      = Except.error (UnmarshalError.unknownClass (bytes "unknown class " ++ goQuote tbl cls)) := by
  unfold unmarshal
  rw [h]

/-! ## Claims on `unmarshal` -/

/-- C16: decoding an unknown class fails whatever the bytes are.  For every
`b`, `unmarshal("UNKNOWN", b)` returns the error with the message
`unknown class "UNKNOWN"`; for every tag outside the case labels of the
switch, the empty tag among them, it returns the error `unknown class`
followed by the quoted tag, the same for all bytes and all decoders. -/
theorem unmarshal_unknown_class {P : Type} (tbl : Nat → Bool)
    (dec : Kind → List Nat → Except GoError (List Nat × P)) (cls b : List Nat)
    (hcls : cls ∉ knownTags) :
    unmarshal tbl dec (bytes "UNKNOWN") b
      = Except.error (UnmarshalError.unknownClass (bytes "unknown class \"UNKNOWN\""))
    ∧ unmarshal tbl dec cls b
      = Except.error (UnmarshalError.unknownClass (bytes "unknown class " ++ goQuote tbl cls))
    ∧ (∀ (dec1 : Kind → List Nat → Except GoError (List Nat × P)) (b1 : List Nat),
        unmarshal tbl dec1 cls b1 = unmarshal tbl dec cls b)
    ∧ ([] : List Nat) ∉ knownTags
    ∧ unmarshal tbl dec [] b
      = Except.error (UnmarshalError.unknownClass (bytes "unknown class \"\"")) := by
  have hnone := (dispatch_eq_none_iff cls).mpr hcls
  refine ⟨rfl, unmarshal_of_dispatch_none tbl dec cls b hnone, ?_, by decide, rfl⟩
  intro dec1 b1
  rw [unmarshal_of_dispatch_none tbl dec1 cls b1 hnone,
    unmarshal_of_dispatch_none tbl dec cls b hnone]

/-- C16, witness: the tag `NOPE` with bytes that are not JSON. -/
theorem unmarshal_unknown_class_witness :
    unmarshal (fun _ => false)
        (fun _ _ => (Except.error (GoError.other 0) : Except GoError (List Nat × Unit)))
        (bytes "NOPE") (bytes "\x7b\x7b\x7b")
      = Except.error (UnmarshalError.unknownClass (bytes "unknown class \"NOPE\"")) :=
  (unmarshal_unknown_class (fun _ => false) _ (bytes "NOPE") (bytes "\x7b\x7b\x7b")
    (by decide)).2.1

/-- C17: every known tag decodes to its own variant.  The case labels of the
switch are the names of the thirteen report structs; for the tag that names
the struct `k` and a frame that `json.Unmarshal` decodes into that struct
with the class attribute in the field `Class`, `unmarshal` succeeds, returns
the struct of kind `k`, and its `class()` is the tag. -/
theorem unmarshal_known_tag {P : Type} (tbl : Nat → Bool)
    (dec : Kind → List Nat → Except GoError (List Nat × P))
    (k : Kind) (frame : List Nat) (fields : P)
    (hvalid : dec k frame = Except.ok (k.name, fields)) :
    knownTags = List.map Kind.name [Kind.TPV, Kind.SKY, Kind.GST, Kind.ATT, Kind.VERSION,
        Kind.DEVICES, Kind.WATCH, Kind.POLL, Kind.TOFF, Kind.PPS, Kind.OSC, Kind.DEVICE,
        Kind.ERROR]
    ∧ k.name ∈ knownTags
    ∧ unmarshal tbl dec k.name frame = Except.ok (Report.struct k k.name fields)
    ∧ (Report.struct k k.name fields).class = k.name := by
  refine ⟨rfl, ?_, ?_, rfl⟩
  · cases k <;> decide
  · unfold unmarshal
    simp only [dispatch_name, hvalid]

/-- C17, witness: `{"class":"VERSION","release":"3.16"}` and
`{"class":"DEVICES","devices":[]}` with a decoder that stores the class
attribute. -/
theorem unmarshal_known_tag_witness :
    unmarshal (fun _ => false)
        (fun _ b => (Except.ok (classOf b, ()) : Except GoError (List Nat × Unit)))
        (bytes "VERSION") (bytes "\x7b\"class\":\"VERSION\",\"release\":\"3.16\"\x7d")
      = Except.ok (Report.struct Kind.VERSION (bytes "VERSION") ())
    ∧ unmarshal (fun _ => false)
        (fun _ b => (Except.ok (classOf b, ()) : Except GoError (List Nat × Unit)))
        (bytes "DEVICES") (bytes "\x7b\"class\":\"DEVICES\",\"devices\":[]\x7d")
      = Except.ok (Report.struct Kind.DEVICES (bytes "DEVICES") ()) :=
  ⟨(unmarshal_known_tag (fun _ => false) _ Kind.VERSION
      (bytes "\x7b\"class\":\"VERSION\",\"release\":\"3.16\"\x7d") () rfl).2.2.1,
    (unmarshal_known_tag (fun _ => false) _ Kind.DEVICES
      (bytes "\x7b\"class\":\"DEVICES\",\"devices\":[]\x7d") () rfl).2.2.1⟩

/-- C18, counterexample: there is no list of fourteen distinct tags that are
exactly the tags for which `unmarshal` does not fail with the unknown-class
error. -/
theorem unmarshal_not_fourteen_tags :
    ¬ ∃ l : List (List Nat), l.Nodup ∧ l.length = 14
        ∧ ∀ cls, cls ∈ l ↔
          ¬ ∃ m, unmarshal (fun _ => false)
              (fun _ _ => (Except.error (GoError.other 0) : Except GoError (List Nat × Unit)))
              cls [] = Except.error (UnmarshalError.unknownClass m) := by
  rintro ⟨l, hnd, hlen, hmem⟩
  have hk : knownTags.Nodup := by decide
  have hperm : l.Perm knownTags := by
    rw [List.perm_ext_iff_of_nodup hnd hk]
    intro a
    rw [hmem a, unmarshal_unknown_iff, dispatch_eq_none_iff, not_not]
  have hl := hperm.length_eq
  rw [hlen] at hl
  revert hl
  decide

/-- C18, amended: the decoder knows thirteen tags.  The case labels of the
switch of `unmarshal` are thirteen distinct tag strings; `unmarshal(cls, b)`
fails with the unknown-class error exactly for the tags that are not among
them. -/
theorem unmarshal_thirteen_tags {P : Type} (tbl : Nat → Bool)
    (dec : Kind → List Nat → Except GoError (List Nat × P)) (cls b : List Nat) :
    knownTags.Nodup ∧ knownTags.length = 13
    ∧ (cls ∈ knownTags ↔
        ¬ ∃ m, unmarshal tbl dec cls b = Except.error (UnmarshalError.unknownClass m))
    ∧ (cls ∈ knownTags ∨
        unmarshal tbl dec cls b = Except.error
          (UnmarshalError.unknownClass (bytes "unknown class " ++ goQuote tbl cls))) := by
  refine ⟨by decide, rfl, ?_, ?_⟩
  · rw [unmarshal_unknown_iff, dispatch_eq_none_iff, not_not]
  · by_cases h : cls ∈ knownTags
    · exact Or.inl h
    · exact Or.inr (unmarshal_of_dispatch_none tbl dec cls b ((dispatch_eq_none_iff cls).mpr h))

/-! ## Lemmas on the reference search -/

theorem strip_cons_space {c : Nat} (l : List Nat) (h : isSpace c = true) :
    strip (c :: l) = strip l := by
  simp [strip, h]

theorem strip_cons_other {c : Nat} (l : List Nat) (h : ¬ isSpace c = true) :
    strip (c :: l) = c :: strip l := by
  simp [strip, h]

theorem matchKey_cons (k : Nat) (ks : List Nat) (c : Nat) (rest : List Nat) :
    matchKey (k :: ks) (c :: rest) =
      if isSpace c then matchKey (k :: ks) rest
      else if c = k then matchKey ks rest
      else none := by
  rw [matchKey]

theorem key_of_matchKey {key s tail : List Nat} (h : matchKey key s = some tail) :
    key <+: strip s := by
  induction s generalizing key with
  | nil =>
    cases key with
    | nil => exact List.nil_prefix
    | cons k ks => simp [matchKey] at h
  | cons c rest ih =>
    cases key with
    | nil => exact List.nil_prefix
    | cons k ks =>
      rw [matchKey_cons] at h
      by_cases hs : isSpace c = true
      · rw [if_pos hs] at h
        rw [strip_cons_space rest hs]
        exact ih h
      · rw [if_neg hs] at h
        rw [strip_cons_other rest hs]
        by_cases hc : c = k
        · rw [if_pos hc] at h
          subst hc
          exact (List.prefix_cons_inj c).mpr (ih h)
        · rw [if_neg hc] at h
          cases h

theorem matchKey_of_key {key s : List Nat} (h : key <+: strip s) :
    ∃ tail, matchKey key s = some tail := by
  induction s generalizing key with
  | nil =>
    cases key with
    | nil => exact ⟨[], rfl⟩
    | cons k ks => simp [strip] at h
  | cons c rest ih =>
    cases key with
    | nil => exact ⟨c :: rest, rfl⟩
    | cons k ks =>
      rw [matchKey_cons]
      by_cases hs : isSpace c = true
      · rw [if_pos hs]
        rw [strip_cons_space rest hs] at h
        exact ih h
      · rw [if_neg hs]
        rw [strip_cons_other rest hs, List.cons_prefix_cons] at h
        rw [if_pos h.1.symm]
        exact ih h.2

theorem matchKey_skip_space (p post : List Nat) (h : strip p = []) :
    matchKey classPrefix (p ++ post) = matchKey classPrefix post := by
  induction p with
  | nil => rfl
  | cons c q ih =>
    by_cases hs : isSpace c = true
    · rw [strip_cons_space q hs] at h
      rw [List.cons_append]
      unfold classPrefix
      rw [matchKey_cons, if_pos hs]
      exact ih h
    · rw [strip_cons_other q hs] at h
      cases h

theorem classRef_of_matchKey {post tail : List Nat}
    (h : matchKey classPrefix post = some tail) :
    classRef post = (classValue tail).getD [] := by
  cases post with
  | nil => simp [matchKey, classPrefix] at h
  | cons c rest =>
    rw [classRef, h]

theorem classLoop_of_matchKey (post : List Nat) :
    ∀ (j k : Nat) (ks tail : List Nat), classPrefix.drop j = k :: ks →
      matchKey (k :: ks) post = some tail → classLoop post j = (classValue tail).getD [] := by
  induction post with
  | nil =>
    intro j k ks tail _ hm
    simp [matchKey] at hm
  | cons c rest ih =>
    intro j k ks tail hdrop hm
    rw [matchKey_cons] at hm
    rw [classLoop_cons]
    by_cases hs : isSpace c = true
    · rw [if_pos hs] at hm ⊢
      exact ih j k ks tail hdrop hm
    · rw [if_neg hs] at hm ⊢
      by_cases hc : c = k
      · rw [if_pos hc] at hm
        subst hc
        have hget : classPrefix[j]? = some c := by
          have h1 := congrArg List.head? hdrop
          rw [List.head?_drop] at h1
          exact h1
        have hlen : classPrefix.length = j + 1 + ks.length := by
          have h1 := congrArg List.length hdrop
          rw [List.length_drop, List.length_cons] at h1
          have h2 : classPrefix.length = 9 := rfl
          omega
        have htail : classPrefix.drop (j + 1) = ks := by
          rw [← List.tail_drop, hdrop]
          rfl
        rw [if_pos hget]
        cases ks with
        | nil =>
          rw [if_pos (by simpa using hlen)]
          simp only [matchKey, Option.some.injEq] at hm
          rw [hm]
        | cons k2 ks2 =>
          have hne : ¬ classPrefix.length = j + 1 := by
            rw [hlen]
            simp
          rw [if_neg hne]
          exact ih (j + 1) k2 ks2 tail htail hm
      · rw [if_neg hc] at hm
        cases hm

theorem classLoop_nil_of_no_key (b : List Nat) (h : ¬ classPrefix <:+: strip b) :
    classLoop b 0 = [] := by
  obtain ⟨j', hk, _, _⟩ :=
    keyState_of_no_key b [] 0 (by omega) (by simp) (by simpa using h)
  have h1 := classLoop_append_of_keyState [] hk
  rw [List.append_nil] at h1
  rw [h1]
  cases j' <;> rfl

theorem no_key_of_cons {c : Nat} {l : List Nat} (h : ¬ classPrefix <:+: strip (c :: l)) :
    ¬ classPrefix <:+: strip l := by
  intro hin
  apply h
  by_cases hs : isSpace c = true
  · rw [strip_cons_space l hs]
    exact hin
  · rw [strip_cons_other l hs]
    exact List.infix_cons hin

theorem classRef_nil_of_no_key (b : List Nat) (h : ¬ classPrefix <:+: strip b) :
    classRef b = [] := by
  induction b with
  | nil => rfl
  | cons c rest ih =>
    rw [classRef]
    cases hm : matchKey classPrefix (c :: rest) with
    | some tail => exact absurd (key_of_matchKey hm).isInfix h
    | none => exact ih (no_key_of_cons h)

theorem last_of_cons {c : Nat} {l : List Nat} {x : Nat} (h : (strip l).getLast? = some x) :
    (strip (c :: l)).getLast? = some x := by
  by_cases hs : isSpace c = true
  · rw [strip_cons_space l hs]
    exact h
  · rw [strip_cons_other l hs]
    cases hl : strip l with
    | nil => simp [hl] at h
    | cons y t =>
      rw [List.getLast?_cons_cons, ← hl]
      exact h

theorem classRef_append (pre post : List Nat) (hpre : ¬ classPrefix <:+: strip pre)
    (hlast : ∀ x, (strip pre).getLast? = some x → x ∉ classPrefix) :
    classRef (pre ++ post) = classRef post := by
  induction pre with
  | nil => rfl
  | cons c p ih =>
    have hpre1 := no_key_of_cons hpre
    have hlast1 : ∀ x, (strip p).getLast? = some x → x ∉ classPrefix :=
      fun x hx => hlast x (last_of_cons hx)
    rw [List.cons_append, classRef]
    cases hm : matchKey classPrefix (c :: (p ++ post)) with
    | none => exact ih hpre1 hlast1
    | some tail =>
      simp only
      by_cases hL : strip (c :: p) = []
      · have h1 := matchKey_skip_space (c :: p) post hL
        rw [List.cons_append, hm] at h1
        exact (classRef_of_matchKey h1.symm).symm
      · exfalso
        have h1 := key_of_matchKey hm
        rw [← List.cons_append, strip_append] at h1
        rcases List.prefix_or_prefix_of_prefix h1 (List.prefix_append _ _) with h2 | h2
        · exact hpre h2.isInfix
        · obtain ⟨x, hx⟩ : ∃ x, (strip (c :: p)).getLast? = some x := by
            cases hl : strip (c :: p) with
            | nil => exact absurd hl hL
            | cons y t => exact ⟨(y :: t).getLast (by simp), List.getLast?_eq_getLast _ _⟩
          have hmem : x ∈ strip (c :: p) := List.mem_of_getLast?_eq_some hx
          exact hlast x hx (h2.subset hmem)

theorem keyState_zero_of_last_other {pre : List Nat} {j' : Nat} (hj : j' < 9)
    (hsuf : classPrefix.take j' <:+ strip pre)
    (hlast : ∀ x, (strip pre).getLast? = some x → x ∉ classPrefix) : j' = 0 := by
  by_contra hne
  have hne' : classPrefix.take j' ≠ [] := by
    interval_cases j' <;> simp [classPrefix] at hne ⊢
  have h := getLast?_of_suffix hsuf hne'
  obtain ⟨x, hx⟩ : ∃ x, (classPrefix.take j').getLast? = some x := by
    cases hl : classPrefix.take j' with
    | nil => exact absurd hl hne'
    | cons y t => exact ⟨(y :: t).getLast (by simp), List.getLast?_eq_getLast _ _⟩
  have hmem : x ∈ classPrefix := List.mem_of_mem_take (List.mem_of_getLast?_eq_some hx)
  exact hlast x (h.trans hx) hmem

/-! ## Claims on the reference search -/

/-- C19, counterexample: on the bytes `""class":"X"` the reference search
finds the key at the second byte and returns `X`, while `class` returns the
empty string: after the first `"` the second one is a mismatch, the state
goes back to 0 and the byte is not looked at again. -/
theorem classOf_differs_from_classRef :
    classOf (bytes "\"\"class\":\"X\"") = []
    ∧ classRef (bytes "\"\"class\":\"X\"") = bytes "X"
    ∧ classOf (bytes "\"\"class\":\"X\"") ≠ classRef (bytes "\"\"class\":\"X\"") := by
  decide

/-- C19, amended: `class` agrees with the reference search on every input
`pre ++ post` in which no occurrence of the key begins inside `pre`: the
bytes of `pre` without whitespace do not contain the key and do not end with
one of the bytes of the key, and the bytes of `post` without whitespace begin
with the key or do not contain it. -/
theorem classOf_eq_classRef (pre post : List Nat)
    (hpre : ¬ classPrefix <:+: strip pre)
    (hlast : ∀ x, (strip pre).getLast? = some x → x ∉ classPrefix)
    (hpost : classPrefix <+: strip post ∨ ¬ classPrefix <:+: strip post) :
    classOf (pre ++ post) = classRef (pre ++ post) := by
  obtain ⟨j', hj, hlt, hsuf⟩ :=
    keyState_of_no_key pre [] 0 (by omega) (by simp) (by simpa using hpre)
  have h0 := keyState_zero_of_last_other hlt (by simpa using hsuf) hlast
  subst h0
  unfold classOf
  rw [classLoop_append_of_keyState post hj, classRef_append pre post hpre hlast]
  rcases hpost with h | h
  · obtain ⟨tail, hm⟩ := matchKey_of_key h
    rw [classRef_of_matchKey hm]
    exact classLoop_of_matchKey post 0 34 [99, 108, 97, 115, 115, 34, 58, 34] tail rfl hm
  · rw [classLoop_nil_of_no_key post h, classRef_nil_of_no_key post h]

/-- C19, witness: `{"device":"x", "class" : "TPV"}` split after the comma. -/
theorem classOf_eq_classRef_witness :
    classOf (bytes "\x7b\"device\":\"x\", " ++ bytes "\"class\" : \"TPV\"\x7d")
      = classRef (bytes "\x7b\"device\":\"x\", " ++ bytes "\"class\" : \"TPV\"\x7d")
    ∧ classRef (bytes "\x7b\"device\":\"x\", " ++ bytes "\"class\" : \"TPV\"\x7d")
      = bytes "TPV" :=
  ⟨classOf_eq_classRef (bytes "\x7b\"device\":\"x\", ") (bytes "\"class\" : \"TPV\"\x7d")
      (by decide)
      (by
        intro x hx
        have h : (strip (bytes "\x7b\"device\":\"x\", ")).getLast? = some 44 := by decide
        rw [h] at hx
        cases hx
        decide)
      (Or.inl (by decide)),
    by decide⟩

end Gpsd
